import Mathlib

/-!
Verification of the time-frequency core of this repository
(`mne/time_frequency/tfr.py` and `mne/time_frequency/_stockwell.py`)
against its natural-language specification.

The Python code is shallowly embedded: numpy arrays become (nested) lists,
machine floats become exact real/rational scalars, raised exceptions become
`Except.error` / explicit result constructors.  Where a numpy FFT round trip
`ifft (fft x * fft w)` occurs, it is embedded as the exact circular
convolution it computes in exact arithmetic (the discrete convolution
theorem); everything else is translated line by line from the source.
-/

set_option maxHeartbeats 1600000
set_option autoImplicit false
set_option linter.unusedVariables false

namespace MneTF

/-! ### Generic list helpers shared by the embedding -/

/-- Entry of a list with default `0`, mirroring in-range numpy indexing
(out-of-range reads never occur on the proved paths). -/
def at1 {α : Type} [Zero α] (l : List α) (i : ℕ) : α := l.getD i 0

/-- Entry of a list-of-lists matrix, default `0`. -/
def at2 {α : Type} [Zero α] (m : List (List α)) (i j : ℕ) : α :=
  (m.getD i []).getD j 0

/-- Decidable equality on `Except`, used to evaluate the embedding at
concrete inputs. -/
instance {ε α : Type} [DecidableEq ε] [DecidableEq α] :
    DecidableEq (Except ε α)
  | Except.error a, Except.error b =>
    if h : a = b then Decidable.isTrue (by rw [h])
    else Decidable.isFalse (by simp [h])
  | Except.error _, Except.ok _ => Decidable.isFalse (by simp)
  | Except.ok _, Except.error _ => Decidable.isFalse (by simp)
  | Except.ok a, Except.ok b =>
    if h : a = b then Decidable.isTrue (by rw [h])
    else Decidable.isFalse (by simp [h])

/-- Eager embedding of consuming a Python generator / list of fallible
results: the first raised exception aborts the whole traversal. -/
def collect {ε α : Type} : List (Except ε α) → Except ε (List α)
  | [] => Except.ok []
  | x :: xs =>
    match x with
    | Except.error e => Except.error e
    | Except.ok a =>
      match collect xs with
      | Except.error e => Except.error e
      | Except.ok l => Except.ok (a :: l)

/-- Ceiling base-2 logarithm: the first `k ≤ n` with `n ≤ 2 ^ k`.  This
embeds Python's `int(math.ceil(math.log(n, 2)))` and numpy's
`int(np.ceil(np.log2(n)))` (exact for every size arising here; Python
raises on `n = 0`, a case the proved paths never reach). -/
def ceilLog2 (n : ℕ) : ℕ :=
  ((List.range (n + 1)).find? (fun k => n ≤ 2 ^ k)).getD 0

/-- Next power of two, `2 ** int(math.ceil(math.log(n, 2)))`. -/
def nextPow2 (n : ℕ) : ℕ := 2 ^ ceilLog2 n

/-- Embedding of numpy slicing `l[::d]` (stride `d ≥ 1`). -/
def decimate {α : Type} (d : ℕ) : List α → List α
  | [] => []
  | a :: l => a :: decimate d (l.drop (d - 1))
termination_by l => l.length
decreasing_by simp [List.length_drop]; omega

/-- Embedding of `_centered(arr, newsize)` (tfr.py lines 172-180) for 1-D
arrays: return the centre `newsize` portion. -/
def centered {α : Type} (l : List α) (newsize : ℕ) : List α :=
  (l.drop ((l.length - newsize) / 2)).take newsize

/-- Zero-pad a list on the right to length `n` (numpy `fftn(x, [n])`
zero-extends the input to length `n` before transforming). -/
def padTo {α : Type} [Zero α] (l : List α) (n : ℕ) : List α :=
  l ++ List.replicate (n - l.length) (0 : α)

/-! ### Stockwell preprocessing: `_check_input_st` (_stockwell.py lines 18-38)

The source is translated including its control-flow slip: the final
`return x_in, n_fft, zero_pad` sits inside the `if n_times < n_fft:`
block, so when no zero padding is needed the function falls off the end
and returns Python `None`. -/

/-- Result of `_check_input_st`: a raised `ValueError`, the implicit Python
`None` (the function body ends without reaching a `return`), or the padded
signal with the resolved FFT length and the zero-pad amount. -/
inductive StRes where
  | err : String → StRes
  | pyNone : StRes
  | ok : List ℤ → ℕ → ℕ → StRes
deriving DecidableEq

/-- Python's `_is_power_of_two = lambda n: not (n > 0 and ((n & (n - 1))))`
(note: it also calls `0` a power of two). -/
def isPowerOfTwoPy (n : ℕ) : Bool :=
  !(decide (0 < n) && decide (Nat.land n (n - 1) ≠ 0))

/-- Tail of `_check_input_st` (lines 30-38): zero-pad and return when
`n_times < n_fft`, otherwise fall off the end of the function body. -/
def stFinish (x : List ℤ) (n_fft : ℕ) : StRes :=
  if x.length < n_fft then
    StRes.ok (x ++ List.replicate (n_fft - x.length) 0) n_fft (n_fft - x.length)
  else
    StRes.pyNone

/-- Embedding of `_check_input_st(x_in, n_fft)` (lines 18-38). -/
def checkInputSt (x : List ℤ) (nfft : Option ℕ) : StRes :=
  match nfft with
  | Option.none => stFinish x (nextPow2 x.length)
  | Option.some m =>
    if !(isPowerOfTwoPy m) && decide (x.length > m) then
      stFinish x (nextPow2 x.length)
    else if m < x.length then
      StRes.err "n_fft cannot be smaller than signal size"
    else
      stFinish x m

/-- Embedding of the data-preparation step of `_induced_power_stockwell`
(line 157): `data, n_fft_, zero_pad = _check_input_st(data, n_fft)`.
Unpacking the Python `None` returned on the no-padding path raises a
`TypeError`; a raised `ValueError` propagates. -/
def inducedPowerStockwellData (x : List ℤ) (nfft : Option ℕ) :
    Except String (List ℤ × ℕ × ℕ) :=
  match checkInputSt x nfft with
  | StRes.ok d n z => Except.ok (d, n, z)
  | StRes.pyNone => Except.error "TypeError: cannot unpack non-sequence None"
  | StRes.err e => Except.error e

/-! ### Convolution engines (`_cwt_fft`, `_cwt_convolve`, tfr.py 183-247)

Both engines are generic in the scalar ring: the Python code is equally
generic in the numpy dtype.  The FFT round trip
`ifftn(fftn(x, [fsize]) * fftn(W, [fsize]))` is embedded as the exact
length-`fsize` circular convolution of the zero-padded inputs (discrete
convolution theorem).  Numpy assignments into preallocated rows are
embedded with an explicit length check that fails with a broadcast error,
as numpy does. -/

/-- Convolution mode argument shared by both engines. -/
inductive ConvMode where
  | full
  | same
  | valid
deriving DecidableEq

/-- Error raised by both engines when a wavelet is longer than the signal
(tfr.py lines 202-203 and 239-240; the message is identical in both). -/
def errWaveletTooLong : String :=
  "Wavelet is too long for such a short signal. Reduce the number of cycles."

/-- Error for a numpy shape-mismatched row assignment. -/
def errBroadcast : String := "could not broadcast input array"

/-- Python `max(W.size for W in Ws)` over the kernel bank. -/
def listMax (l : List ℕ) : ℕ := l.foldr max 0

/-- The FFT length chosen by `_cwt_fft` (tfr.py lines 193-196):
`2 ** ceil(log2(n_times + max_kernel_length - 1))`. -/
def cwtFsize {α : Type} (n_times : ℕ) (Ws : List (List α)) : ℕ :=
  nextPow2 (n_times + listMax (Ws.map List.length) - 1)

/-- Length-`n` circular convolution: the exact value of
`ifft(fft a * fft b)` for length-`n` transforms in exact arithmetic. -/
def circConv {α : Type} [CommRing α] (n : ℕ) (a b : List α) : List α :=
  (List.range n).map (fun k =>
    ((List.range n).map (fun j => a.getD j 0 * b.getD ((n + k - j) % n) 0)).sum)

/-- Full linear convolution, length `a.length + b.length - 1`. -/
def linConv {α : Type} [CommRing α] (a b : List α) : List α :=
  (List.range (a.length + b.length - 1)).map (fun k =>
    ((List.range a.length).map (fun j =>
      if j ≤ k then a.getD j 0 * b.getD (k - j) 0 else 0)).sum)

/-- Embedding of `np.convolve(a, b, mode)`: the full convolution cropped to
the mode's target length (numpy's documented semantics). -/
def npConvolve {α : Type} [CommRing α] (mode : ConvMode) (a b : List α) :
    List α :=
  match mode with
  | ConvMode.full => linConv a b
  | ConvMode.same => centered (linConv a b) (max a.length b.length)
  | ConvMode.valid =>
    centered (linConv a b) (max a.length b.length - min a.length b.length + 1)

/-- The value `_centered(ret, n_times)` written into a row by `_cwt_fft`
in the non-`valid` modes: the symmetric interior crop, to the input
length, of the first `n_times + W.size - 1` samples of the FFT-based
convolution. -/
def fftSameRow {α : Type} [CommRing α] (fsize n_times : ℕ) (x W : List α) :
    List α :=
  centered ((circConv fsize (padTo x fsize) (padTo W fsize)).take
    (n_times + W.length - 1)) n_times

/-- One row of `_cwt_fft`'s per-trial loop (tfr.py lines 213-220):
`ret = ifftn(fft_x * fft_Ws[i])[:n_times + W.size - 1]` followed by the
mode-dependent write into the preallocated row (`fsize` wide for `full`,
`n_times` wide otherwise). -/
def cwtFftRow {α : Type} [CommRing α] (fsize n_times : ℕ) (mode : ConvMode)
    (x W : List α) : Except String (List α) :=
  let ret := (circConv fsize (padTo x fsize) (padTo W fsize)).take
    (n_times + W.length - 1)
  match mode with
  | ConvMode.valid =>
    let sz := max W.length n_times - min W.length n_times + 1
    let offset := (n_times - sz) / 2
    if (centered ret sz).length = sz ∧ offset + sz ≤ n_times then
      Except.ok (List.replicate offset 0 ++ centered ret sz ++
        List.replicate (n_times - offset - sz) 0)
    else Except.error errBroadcast
  | ConvMode.full =>
    if (centered ret n_times).length = fsize then
      Except.ok (centered ret n_times)
    else Except.error errBroadcast
  | ConvMode.same =>
    if (centered ret n_times).length = n_times then
      Except.ok (centered ret n_times)
    else Except.error errBroadcast

/-- Embedding of `_cwt_fft(X, Ws, mode)` (tfr.py lines 183-221), with the
generator consumed eagerly: the up-front wavelet-length check over the
bank, then one coefficient array per trial. -/
def cwtFft {α : Type} [CommRing α] (X : List (List α)) (Ws : List (List α))
    (mode : ConvMode) : Except String (List (List (List α))) :=
  match collect (Ws.map (fun W =>
      if (X.headD []).length < W.length then Except.error errWaveletTooLong
      else Except.ok W)) with
  | Except.error e => Except.error e
  | Except.ok _ =>
    collect (X.map (fun x =>
      collect (Ws.map (fun W =>
        cwtFftRow (cwtFsize (X.headD []).length Ws) (X.headD []).length
          mode x W))))

/-- One row of `_cwt_convolve`'s per-trial loop (tfr.py lines 236-246):
`np.convolve`, the wavelet-length check, then the mode-dependent write
into the `n_times`-wide preallocated row. -/
def cwtConvRow {α : Type} [CommRing α] (n_times : ℕ) (mode : ConvMode)
    (x W : List α) : Except String (List α) :=
  let ret := npConvolve mode x W
  if x.length < W.length then Except.error errWaveletTooLong
  else
    match mode with
    | ConvMode.valid =>
      let sz := max W.length n_times - min W.length n_times + 1
      let offset := (n_times - sz) / 2
      if ret.length = sz ∧ offset + sz ≤ n_times then
        Except.ok (List.replicate offset 0 ++ ret ++
          List.replicate (n_times - offset - sz) 0)
      else Except.error errBroadcast
    | _ =>
      if ret.length = n_times then Except.ok ret
      else Except.error errBroadcast

/-- Embedding of `_cwt_convolve(X, Ws, mode)` (tfr.py lines 224-247),
consumed eagerly. -/
def cwtConvolve {α : Type} [CommRing α] (X : List (List α))
    (Ws : List (List α)) (mode : ConvMode) :
    Except String (List (List (List α))) :=
  collect (X.map (fun x =>
    collect (Ws.map (fun W => cwtConvRow (X.headD []).length mode x W))))

/-! ### Wavelet builders (`morlet`, `_dpss_wavelet`, tfr.py 44-169)

These are embedded over exact reals/complexes (the Python code works in
floating point; every algebraic identity proved below holds exactly). -/

/-- L2 norm `linalg.norm(W.ravel())` of a complex sequence. -/
noncomputable def l2norm (l : List ℂ) : ℝ :=
  Real.sqrt ((l.map (fun z => Complex.abs z ^ 2)).sum)

/-- The shared in-place normalisation `W /= sqrt(0.5) * linalg.norm(W)`
(tfr.py lines 103 and 163). -/
noncomputable def normalizeK (l : List ℂ) : List ℂ :=
  l.map (fun z => z / ((Real.sqrt 0.5 * l2norm l : ℝ) : ℂ))

/-- Cycle selection (tfr.py lines 84-87 and 145-148): the `k`-th entry
when one cycle count per frequency was given, the single shared entry
otherwise. -/
def cycSel (ncycles : List ℝ) (k : ℕ) : ℝ :=
  if ncycles.length ≠ 1 then ncycles.getD k 0 else ncycles.getD 0 0

/-- Embedding of `np.arange(0., stop, step)` for a positive step:
`⌈stop/step⌉` points `i * step` (numpy's documented element count). -/
noncomputable def arange0 (stop step : ℝ) : List ℝ :=
  (List.range ⌈stop / step⌉₊).map (fun (i : ℕ) => (i : ℝ) * step)

/-- The unnormalised Morlet kernel for one frequency (tfr.py lines 88-102):
symmetric time grid `t = r_[-t[::-1], t[1:]]` over `±5σ_t`, oscillation
`exp(2i·π·f·t)` minus (if `zero_mean`) the offset `exp(-2(π f σ_t)²)`,
times the Gaussian envelope. -/
noncomputable def morletRaw (sfreq f nc : ℝ) (sigma : Option ℝ)
    (zm : Bool) : List ℂ :=
  let sigma_t : ℝ :=
    match sigma with
    | Option.none => nc / (2 * Real.pi * f)
    | Option.some s => nc / (2 * Real.pi * s)
  let tpos := arange0 (5 * sigma_t) (1 / sfreq)
  let t := tpos.reverse.map (fun u => -u) ++ tpos.drop 1
  t.map (fun (u : ℝ) =>
    (Complex.exp (2 * Complex.I * (Real.pi : ℂ) * (f : ℂ) * (u : ℂ)) -
        (if zm then ((Real.exp (-2 * (Real.pi * f * sigma_t) ^ 2) : ℝ) : ℂ)
          else 0)) *
      ((Real.exp (-(u ^ 2) / (2 * sigma_t ^ 2)) : ℝ) : ℂ))

/-- One normalised Morlet kernel (tfr.py line 103). -/
noncomputable def morletKernel (sfreq f nc : ℝ) (sigma : Option ℝ)
    (zm : Bool) : List ℂ :=
  normalizeK (morletRaw sfreq f nc sigma zm)

/-- Embedding of `morlet(sfreq, freqs, n_cycles, sigma, zero_mean)`
(tfr.py lines 44-105); `n_cycles` is taken after `np.atleast_1d`. -/
noncomputable def morlet (sfreq : ℝ) (freqs ncycles : List ℝ)
    (sigma : Option ℝ) (zm : Bool) : Except String (List (List ℂ)) :=
  if ncycles.length = 1 ∨ ncycles.length = freqs.length then
    Except.ok (freqs.enum.map (fun p =>
      morletKernel sfreq p.2 (cycSel ncycles p.1) sigma zm))
  else
    Except.error "n_cycles should be fixed or defined for each frequency."

/-- The unnormalised DPSS-tapered kernel for one (taper, frequency) pair
(tfr.py lines 150-162).  `dpss` is the external collaborator
`dpss_windows(N, half_nbw, n_taps)` (module `multitaper`, not part of
this core), passed as a function returning the taper matrix. -/
noncomputable def dpssRaw (dpss : ℕ → ℝ → ℕ → List (List ℝ))
    (sfreq f nc tb : ℝ) (nTaps m : ℕ) (zm : Bool) : List ℂ :=
  let t_win := nc / f
  let t := arange0 t_win (1 / sfreq)
  let oscillation := t.map (fun (u : ℝ) =>
    Complex.exp (2 * Complex.I * (Real.pi : ℂ) * (f : ℂ) *
      ((u - t_win / 2 : ℝ) : ℂ)))
  let tapers := dpss t.length (tb / 2) nTaps
  let Wk := List.zipWith (fun o tap => o * ((tap : ℝ) : ℂ))
    oscillation (tapers.getD m [])
  if zm then Wk.map (fun z => z - Wk.sum / (Wk.length : ℂ)) else Wk

/-- One normalised DPSS kernel (tfr.py line 163). -/
noncomputable def dpssKernel (dpss : ℕ → ℝ → ℕ → List (List ℝ))
    (sfreq f nc tb : ℝ) (nTaps m : ℕ) (zm : Bool) : List ℂ :=
  normalizeK (dpssRaw dpss sfreq f nc tb nTaps m zm)

/-- Embedding of `_dpss_wavelet(sfreq, freqs, n_cycles, time_bandwidth,
zero_mean)` (tfr.py lines 108-169): the `time_bandwidth ≥ 2` check, the
cycle-count check, then the taper-major, frequency-minor kernel bank with
`int(floor(time_bandwidth - 1))` tapers. -/
noncomputable def dpssWavelet (dpss : ℕ → ℝ → ℕ → List (List ℝ))
    (sfreq : ℝ) (freqs ncycles : List ℝ) (tb : ℝ) (zm : Bool) :
    Except String (List (List (List ℂ))) :=
  if tb < 2 then
    Except.error "time_bandwidth should be >= 2.0 for good tapers"
  else if ncycles.length = 1 ∨ ncycles.length = freqs.length then
    Except.ok ((List.range ⌊tb - 1⌋₊).map (fun m =>
      freqs.enum.map (fun p =>
        dpssKernel dpss sfreq p.2 (cycSel ncycles p.1) tb ⌊tb - 1⌋₊ m zm)))
  else
    Except.error "n_cycles should be fixed or defined for each frequency."

/-- Shape predicate for a list-of-lists matrix: `F` rows of `nc` entries. -/
def dims2 {α : Type} (A : List (List α)) (F nc : ℕ) : Prop :=
  A.length = F ∧ ∀ r ∈ A, r.length = nc


/-! ### Result container `AverageTFR` (tfr.py 545-810, claims C9 and C10)

Only the fields and operations the claims touch are embedded: the data
array (over exact rationals), the time and frequency axes, and the trial
count.  `_check_compat` asserts only on `times` and `freqs`; `__add__` /
`__sub__` copy the container and combine data elementwise, with numpy's
leading-axis broadcast: equal channel counts combine pairwise, a
1-channel right operand is broadcast across the left's channels, and any
other mismatch is a broadcast `ValueError` (in-place `+=` forbids
broadcasting the left operand up). -/

/-- Minimal embedding of an `AverageTFR` container. -/
structure TFRm where
  data : List (List (List ℚ))
  times : List ℚ
  freqs : List ℚ
  nave : ℕ
deriving DecidableEq

/-- Embedding of `_check_compat` (tfr.py lines 781-784): assert equal
time and frequency axes, nothing else. -/
def checkCompat (self other : TFRm) : Bool :=
  decide (other.times = self.times) && decide (other.freqs = self.freqs)

/-- Elementwise 2-D combination (equal trailing shapes). -/
def d2combine (op : ℚ → ℚ → ℚ) (a b : List (List ℚ)) : List (List ℚ) :=
  List.zipWith (List.zipWith op) a b

/-- Numpy in-place elementwise combination of two 3-D arrays with
leading-axis broadcast. -/
def d3combine (op : ℚ → ℚ → ℚ) (a b : List (List (List ℚ))) :
    Except String (List (List (List ℚ))) :=
  if b.length = a.length then
    Except.ok (List.zipWith (d2combine op) a b)
  else if b.length = 1 then
    Except.ok (a.map (fun ch => d2combine op ch (b.headD [])))
  else
    Except.error errBroadcast

/-- Embedding of `AverageTFR.__add__` (tfr.py lines 786-790): assert
compatibility, copy, add the other's data elementwise. -/
def tfrAdd (a b : TFRm) : Except String TFRm :=
  if checkCompat a b then
    (d3combine (fun u v => u + v) a.data b.data).map
      (fun dd => { a with data := dd })
  else
    Except.error "AssertionError"

/-- Embedding of `AverageTFR.__sub__` (tfr.py lines 797-801). -/
def tfrSub (a b : TFRm) : Except String TFRm :=
  if checkCompat a b then
    (d3combine (fun u v => u - v) a.data b.data).map
      (fun dd => { a with data := dd })
  else
    Except.error "AssertionError"

/-- Shape predicate for 3-D data: `nchan` channel slices of `F × T`. -/
def dims3 (A : List (List (List ℚ))) (nchan F T : ℕ) : Prop :=
  A.length = nchan ∧ ∀ m ∈ A, dims2 m F T

/-! ### Reduction layer (`_time_frequency`, tfr.py 339-361) and the
orchestration paths of claim C7 (`single_trial_power`,
`_induced_power_cwt`, tfr.py 364-503) -/

/-- Engine selection shared by `_time_frequency`, `cwt_morlet` and `cwt`
(tfr.py lines 349-352 etc.), always invoked with mode `same`. -/
noncomputable def cwtSame (useFft : Bool) (X Ws : List (List ℂ)) :
    Except String (List (List (List ℂ))) :=
  if useFft then cwtFft X Ws ConvMode.same else cwtConvolve X Ws ConvMode.same

/-- Elementwise matrix accumulation `psd += ...` / `plf += ...`. -/
def madd {α : Type} [Add α] (A B : List (List α)) : List (List α) :=
  List.zipWith (List.zipWith (fun a b => a + b)) A B

/-- Preallocated zero matrix `np.zeros((r, c))`. -/
def zeros2 {α : Type} [Zero α] (r c : ℕ) : List (List α) :=
  List.replicate r (List.replicate c 0)

/-- Decimated time-axis length
`n_times // decim + bool(n_times % decim)` (tfr.py line 343). -/
def nOut (n d : ℕ) : ℕ := n / d + (if n % d ≠ 0 then 1 else 0)

/-- Embedding of `_time_frequency(X, Ws, use_fft, decim)` (tfr.py lines
339-361): run the engine in mode `same`, accumulate `|coef|²` and
`coef/|coef|` over the per-trial coefficient arrays (decimated), then
divide by the trial count (and take magnitudes for the phase lock). -/
noncomputable def timeFrequency (X Ws : List (List ℂ)) (useFft : Bool)
    (d : ℕ) : Except String (List (List ℝ) × List (List ℝ)) :=
  match cwtSame useFft X Ws with
  | Except.error e => Except.error e
  | Except.ok tfrs =>
    let acc := tfrs.foldl (fun acc tfr =>
      (madd acc.1 ((tfr.map (decimate d)).map
          (List.map (fun z => Complex.abs z ^ 2))),
       madd acc.2 ((tfr.map (decimate d)).map
          (List.map (fun z => z / ((Complex.abs z : ℝ) : ℂ))))))
      (zeros2 Ws.length (nOut (X.headD []).length d),
       zeros2 Ws.length (nOut (X.headD []).length d))
    Except.ok
      (acc.1.map (List.map (fun v => v / (X.length : ℝ))),
       acc.2.map (List.map (fun z => Complex.abs z / (X.length : ℝ))))

/-- Embedding of `cwt(X, Ws, use_fft, mode, decim)` (tfr.py lines
303-336): the engine's per-trial arrays with `tfr[..., ::decim]`. -/
noncomputable def cwtArr (X Ws : List (List ℂ)) (useFft : Bool)
    (mode : ConvMode) (d : ℕ) : Except String (List (List (List ℂ))) :=
  match (if useFft then cwtFft X Ws mode else cwtConvolve X Ws mode) with
  | Except.error e => Except.error e
  | Except.ok T => Except.ok (T.map (fun C => C.map (decimate d)))

/-- Embedding of `single_trial_power` (tfr.py lines 364-451) up to the
final external `rescale` call (which both branches apply identically to
the computed power array).  `pmap` is the external parallel map from
`parallel_func`; `seqBranch` selects the `n_jobs == 1` loop (which maps
`cwt` over the epochs itself) versus the parallel branch (which hands the
same function to `pmap`).  Per epoch the power is `(x * x.conj()).real`
elementwise. -/
noncomputable def singleTrialPower
    (pmap : (List (List ℂ) → Except String (List (List (List ℂ)))) →
      List (List (List ℂ)) → List (Except String (List (List (List ℂ)))))
    (seqBranch : Bool) (data : List (List (List ℂ))) (sfreq : ℝ)
    (frequencies ncycles : List ℝ) (useFft : Bool) (d : ℕ) (zm : Bool) :
    Except String (List (List (List (List ℝ)))) :=
  match morlet sfreq frequencies ncycles Option.none zm with
  | Except.error e => Except.error e
  | Except.ok Ws =>
    match collect (if seqBranch
        then data.map (fun e => cwtArr e Ws useFft ConvMode.same d)
        else pmap (fun e => cwtArr e Ws useFft ConvMode.same d) data) with
    | Except.error e => Except.error e
    | Except.ok tfrs =>
      Except.ok (tfrs.map (fun t => t.map (fun C => C.map (List.map
        (fun z => (z * (starRingEnd ℂ) z).re)))))

/-- Embedding of `_induced_power_cwt` (tfr.py lines 454-503): build the
Morlet bank, parallel-map `_time_frequency` over the per-channel slices
`data[:, c, :]` in channel order, and write result `c` into output slot
`c` of the `(psd, plf)` pair. -/
noncomputable def inducedPowerCwt
    (pmap : (List (List ℂ) → Except String (List (List ℝ) × List (List ℝ))) →
      List (List (List ℂ)) →
      List (Except String (List (List ℝ) × List (List ℝ))))
    (data : List (List (List ℂ))) (sfreq : ℝ)
    (frequencies ncycles : List ℝ) (useFft : Bool) (d : ℕ) (zm : Bool) :
    Except String (List (List (List ℝ)) × List (List (List ℝ))) :=
  match morlet sfreq frequencies ncycles Option.none zm with
  | Except.error e => Except.error e
  | Except.ok Ws =>
    match collect (pmap (fun x => timeFrequency x Ws useFft d)
        ((List.range (data.headD []).length).map
          (fun c => data.map (fun e => e.getD c [])))) with
    | Except.error e => Except.error e
    | Except.ok rs => Except.ok (rs.map Prod.fst, rs.map Prod.snd)

end MneTF

namespace MneTF

/-! ### Basic lemmas about the helpers -/

theorem le_pow_ceilLog2 (n : ℕ) : n ≤ 2 ^ ceilLog2 n := by
  unfold ceilLog2
  cases hf : (List.range (n + 1)).find? (fun k => n ≤ 2 ^ k) with
  | none =>
    exfalso
    have hmem : n ∈ List.range (n + 1) := List.mem_range.mpr (Nat.lt_succ_self n)
    have := List.find?_eq_none.mp hf n hmem
    simp at this
    exact absurd (Nat.le_of_lt (Nat.lt_two_pow n)) (Nat.not_le.mpr this)
  | some k =>
    have := List.find?_some hf
    simpa using this

theorem nextPow2_ge (n : ℕ) : n ≤ nextPow2 n := le_pow_ceilLog2 n

/-! ### Claim C1: the Stockwell scenario (256 samples, default FFT length)

`n_fft = None` resolves to the next power of two, which for a 256-sample
signal is 256 itself; no zero padding is needed, `_check_input_st` falls
off the end returning `None`, and `_induced_power_stockwell` fails when
unpacking the triple. -/

/-- Claim C1 (code_bug evidence): for any 256-sample input batch (the
spec's 10 Hz sinusoid scenario, `n_fft` unspecified), `_check_input_st`
returns Python `None` — its `return` statement is only reached when zero
padding happens — so `_induced_power_stockwell` crashes unpacking the
result and never produces a power array. -/
theorem c1_stockwell_256_crashes (x : List ℤ) (h : x.length = 256) :
    checkInputSt x Option.none = StRes.pyNone ∧
      inducedPowerStockwellData x Option.none =
        Except.error "TypeError: cannot unpack non-sequence None" := by
  have hpow : nextPow2 (256 : ℕ) = 256 := by decide
  have h1 : checkInputSt x Option.none = StRes.pyNone := by
    unfold checkInputSt stFinish
    rw [h, hpow]
    simp
  exact ⟨h1, by unfold inducedPowerStockwellData; rw [h1]⟩

/-- Witness for C1 at a concrete 256-sample signal. -/
theorem c1_stockwell_256_crashes_witness :
    (List.replicate 256 (1 : ℤ)).length = 256 ∧
      inducedPowerStockwellData (List.replicate 256 (1 : ℤ)) Option.none =
        Except.error "TypeError: cannot unpack non-sequence None" :=
  ⟨List.length_replicate 256 1,
   (c1_stockwell_256_crashes (List.replicate 256 (1 : ℤ))
     (List.length_replicate 256 1)).2⟩

/-! ### Claim C2: when does `_check_input_st` raise?

The guard `if n_fft is None or (not _is_power_of_two(n_fft) and n_times >
n_fft)` silently replaces a non-power-of-two `n_fft` smaller than the
signal length by the next power of two; only a power-of-two `n_fft`
smaller than the signal reaches the `raise ValueError`. -/

/-- Counterexample to C2 as stated: the explicitly requested FFT length 3
is smaller than the 5-sample signal, yet no `ValueError` is raised — the
code silently substitutes 8 (the next power of two) and zero-pads. -/
theorem c2_counterexample :
    checkInputSt [1, 2, 3, 4, 5] (Option.some 3) =
      StRes.ok [1, 2, 3, 4, 5, 0, 0, 0] 8 3 := by decide

/-- The zero-pad tail of `_check_input_st` never raises. -/
theorem stFinish_ne_err (x : List ℤ) (n : ℕ) (s : String) :
    stFinish x n ≠ StRes.err s := by
  unfold stFinish
  split <;> simp

/-- Claim C2 (amended): `_check_input_st` raises `ValueError` exactly when
the requested FFT length passes the code's power-of-two test and is
smaller than the signal length; a non-power-of-two FFT length smaller
than the signal is silently replaced by the next power of two at least
the signal length, zero-padding and proceeding when that next power of
two exceeds the signal length. -/
theorem c2_amended_value_error_iff (x : List ℤ) (m : ℕ) :
    (checkInputSt x (Option.some m) =
        StRes.err "n_fft cannot be smaller than signal size" ↔
      isPowerOfTwoPy m = true ∧ m < x.length) ∧
    (isPowerOfTwoPy m = false → m < x.length → x.length < nextPow2 x.length →
      checkInputSt x (Option.some m) =
        StRes.ok (x ++ List.replicate (nextPow2 x.length - x.length) 0)
          (nextPow2 x.length) (nextPow2 x.length - x.length)) := by
  constructor
  · show (if (!isPowerOfTwoPy m && decide (x.length > m)) = true then
        stFinish x (nextPow2 x.length)
      else if m < x.length then
        StRes.err "n_fft cannot be smaller than signal size"
      else stFinish x m) =
        StRes.err "n_fft cannot be smaller than signal size" ↔ _
    split_ifs with h1 h2
    · simp only [Bool.and_eq_true, Bool.not_eq_true', decide_eq_true_eq,
        gt_iff_lt] at h1
      constructor
      · intro h
        exact absurd h (stFinish_ne_err _ _ _)
      · rintro ⟨hp, _⟩
        rw [hp] at h1
        exact absurd h1.1 (by simp)
    · constructor
      · intro _
        refine ⟨?_, h2⟩
        by_contra hp
        rw [Bool.not_eq_true] at hp
        exact h1 (by simp [hp, h2])
      · intro _
        rfl
    · constructor
      · intro h
        exact absurd h (stFinish_ne_err _ _ _)
      · rintro ⟨_, hlt⟩
        exact absurd hlt h2
  · intro hp hlt hpad
    unfold checkInputSt stFinish
    simp [hp, hlt, hpad]

/-! ### Lemmas about `collect`, `centered` and the engines -/

theorem collect_map_ok {β ε α : Type} (f : β → Except ε α) (g : β → α) :
    ∀ l : List β, (∀ b ∈ l, f b = Except.ok (g b)) →
      collect (l.map f) = Except.ok (l.map g) := by
  intro l
  induction l with
  | nil => intro _; rfl
  | cons b xs ih =>
    intro h
    have hb := h b (List.mem_cons_self b xs)
    have hxs := ih (fun c hc => h c (List.mem_cons_of_mem b hc))
    simp only [List.map_cons, collect, hb, hxs]

theorem collect_error_of_exists {ε α : Type} :
    ∀ l : List (Except ε α), (∃ x ∈ l, ∃ e, x = Except.error e) →
      ∃ e, collect l = Except.error e := by
  intro l
  induction l with
  | nil => rintro ⟨x, hx, _⟩; exact absurd hx (List.not_mem_nil x)
  | cons a xs ih =>
    rintro ⟨x, hx, e, hxe⟩
    rcases List.mem_cons.mp hx with h | h
    · subst h; subst hxe; exact ⟨e, rfl⟩
    · cases a with
      | error e0 => exact ⟨e0, rfl⟩
      | ok v =>
        obtain ⟨e1, he1⟩ := ih ⟨x, h, e, hxe⟩
        exact ⟨e1, by simp only [collect, he1]⟩

theorem collect_error_uniform {ε α : Type} (e : ε) :
    ∀ l : List (Except ε α), (∃ x ∈ l, x = Except.error e) →
      (∀ x ∈ l, x = Except.error e ∨ ∃ a, x = Except.ok a) →
      collect l = Except.error e := by
  intro l
  induction l with
  | nil => rintro ⟨x, hx, _⟩ _; exact absurd hx (List.not_mem_nil x)
  | cons a xs ih =>
    rintro ⟨x, hx, hxe⟩ hall
    rcases hall a (List.mem_cons_self a xs) with ha | ⟨v, hv⟩
    · subst ha; rfl
    · subst hv
      have hmem : ∃ y ∈ xs, y = Except.error e := by
        rcases List.mem_cons.mp hx with h | h
        · rw [h] at hxe; exact absurd hxe (by simp)
        · exact ⟨x, h, hxe⟩
      have := ih hmem (fun y hy => hall y (List.mem_cons_of_mem _ hy))
      simp only [collect, this]

theorem centered_length_of_le {α : Type} (l : List α) (k : ℕ)
    (h : k ≤ l.length) : (centered l k).length = k := by
  simp only [centered, List.length_take, List.length_drop]
  omega

theorem le_listMax : ∀ (l : List ℕ), ∀ x ∈ l, x ≤ listMax l := by
  intro l
  induction l with
  | nil => intro x hx; exact absurd hx (List.not_mem_nil x)
  | cons a xs ih =>
    intro x hx
    rcases List.mem_cons.mp hx with h | h
    · subst h; exact le_max_left _ _
    · exact le_trans (ih x h) (le_max_right _ _)

theorem circConv_length {α : Type} [CommRing α] (n : ℕ) (a b : List α) :
    (circConv n a b).length = n := by simp [circConv]

theorem linConv_length {α : Type} [CommRing α] (a b : List α) :
    (linConv a b).length = a.length + b.length - 1 := by simp [linConv]

theorem fftSameRow_length {α : Type} [CommRing α] (fsize n : ℕ) (x W : List α)
    (h1 : 1 ≤ W.length) (h2 : W.length ≤ n) (hf : n + W.length - 1 ≤ fsize) :
    (fftSameRow fsize n x W).length = n := by
  unfold fftSameRow
  apply centered_length_of_le
  rw [List.length_take, circConv_length]
  omega

theorem cwtFftRow_same_ok {α : Type} [CommRing α] (fsize n : ℕ)
    (x W : List α) (h1 : 1 ≤ W.length) (h2 : W.length ≤ n)
    (hf : n + W.length - 1 ≤ fsize) :
    cwtFftRow fsize n ConvMode.same x W =
      Except.ok (fftSameRow fsize n x W) := by
  have h := fftSameRow_length fsize n x W h1 h2 hf
  unfold fftSameRow at h
  unfold cwtFftRow
  simp only
  rw [if_pos h]
  rfl

theorem cwtFftRow_full_err {α : Type} [CommRing α] (fsize n : ℕ)
    (x W : List α) (h1 : 1 ≤ W.length) (h2 : W.length ≤ n)
    (hf : n + W.length - 1 ≤ fsize) (hne : fsize ≠ n) :
    cwtFftRow fsize n ConvMode.full x W = Except.error errBroadcast := by
  have h := fftSameRow_length fsize n x W h1 h2 hf
  unfold fftSameRow at h
  unfold cwtFftRow
  simp only
  rw [if_neg (by rw [h]; omega)]

theorem npConvolve_same_length {α : Type} [CommRing α] (x W : List α)
    (h1 : 1 ≤ W.length) (h2 : W.length ≤ x.length) :
    (npConvolve ConvMode.same x W).length = x.length := by
  unfold npConvolve
  rw [max_eq_left h2]
  apply centered_length_of_le
  rw [linConv_length]
  omega

theorem cwtConvRow_same_ok {α : Type} [CommRing α] (n : ℕ) (x W : List α)
    (hx : x.length = n) (h1 : 1 ≤ W.length) (h2 : W.length ≤ n) :
    cwtConvRow n ConvMode.same x W =
      Except.ok (npConvolve ConvMode.same x W) := by
  unfold cwtConvRow
  rw [if_neg (by omega)]
  simp only
  rw [if_pos]
  rw [npConvolve_same_length x W h1 (by omega), hx]

theorem fsize_bound {α : Type} (Ws : List (List α)) (n : ℕ) (W : List α)
    (hw : W ∈ Ws) : n + W.length - 1 ≤ cwtFsize n Ws := by
  calc n + W.length - 1
      ≤ n + listMax (Ws.map List.length) - 1 := by
        have : W.length ≤ listMax (Ws.map List.length) :=
          le_listMax _ _ (List.mem_map_of_mem List.length hw)
        omega
    _ ≤ cwtFsize n Ws := nextPow2_ge _

theorem cwtFft_same_ok {α : Type} [CommRing α] (X Ws : List (List α)) (n : ℕ)
    (hX : X ≠ []) (hU : ∀ x ∈ X, x.length = n)
    (hW : ∀ W ∈ Ws, 1 ≤ W.length ∧ W.length ≤ n) :
    cwtFft X Ws ConvMode.same =
      Except.ok (X.map (fun x =>
        Ws.map (fun W => fftSameRow (cwtFsize n Ws) n x W))) := by
  obtain ⟨x0, xs, rfl⟩ := List.exists_cons_of_ne_nil hX
  have hn : ((x0 :: xs).headD []).length = n := hU x0 (List.mem_cons_self _ _)
  unfold cwtFft
  rw [hn]
  rw [collect_map_ok _ id Ws (fun W hw => by
    rw [if_neg (by have := (hW W hw).2; omega)]
    rfl)]
  apply collect_map_ok
  intro x hx
  apply collect_map_ok
  intro W hw
  exact cwtFftRow_same_ok _ n x W (hW W hw).1 (hW W hw).2 (fsize_bound Ws n W hw)

theorem cwtConvolve_same_ok {α : Type} [CommRing α] (X Ws : List (List α))
    (n : ℕ) (hU : ∀ x ∈ X, x.length = n)
    (hW : ∀ W ∈ Ws, 1 ≤ W.length ∧ W.length ≤ n) :
    cwtConvolve X Ws ConvMode.same =
      Except.ok (X.map (fun x => Ws.map (npConvolve ConvMode.same x))) := by
  cases X with
  | nil => rfl
  | cons x0 xs =>
    have hn : ((x0 :: xs).headD []).length = n :=
      hU x0 (List.mem_cons_self _ _)
    unfold cwtConvolve
    rw [hn]
    apply collect_map_ok
    intro x hx
    apply collect_map_ok
    intro W hw
    exact cwtConvRow_same_ok n x W (hU x hx) (hW W hw).1 (hW W hw).2

/-! ### Claim C4: mode semantics of `_cwt_fft` -/

/-- Counterexample to C4 as stated: in mode `full` the engine never yields
an uncropped convolution — for the 4-sample trial `[1,0,0,0]` and the
2-sample kernel `[1,1]` the padded FFT size is 8, the code still
center-crops to 4 samples, and the row assignment fails with a broadcast
`ValueError` instead of yielding anything. -/
theorem c4_counterexample :
    cwtFft ([[1, 0, 0, 0]] : List (List ℤ)) [[1, 1]] ConvMode.full =
      Except.error errBroadcast := by decide

/-- Claim C4 (amended): in mode `same` each yielded row is the symmetric
interior crop, to the input length, of the FFT-based convolution; in mode
`full` the engine is broken — it still center-crops to the input length
while the preallocated rows are `fsize` wide, so whenever the padded FFT
size differs from the input length the whole call fails with a broadcast
`ValueError` and yields nothing. -/
theorem c4_amended_same_crops_full_errors {α : Type} [CommRing α]
    (X Ws : List (List α)) (n : ℕ) (hX : X ≠ []) (hWne : Ws ≠ [])
    (hU : ∀ x ∈ X, x.length = n)
    (hW : ∀ W ∈ Ws, 1 ≤ W.length ∧ W.length ≤ n) :
    (cwtFft X Ws ConvMode.same =
      Except.ok (X.map (fun x =>
        Ws.map (fun W => fftSameRow (cwtFsize n Ws) n x W))) ∧
      ∀ x ∈ X, ∀ W ∈ Ws, (fftSameRow (cwtFsize n Ws) n x W).length = n) ∧
    (cwtFsize n Ws ≠ n →
      cwtFft X Ws ConvMode.full = Except.error errBroadcast) := by
  refine ⟨⟨cwtFft_same_ok X Ws n hX hU hW, ?_⟩, ?_⟩
  · intro x _ W hw
    exact fftSameRow_length _ n x W (hW W hw).1 (hW W hw).2
      (fsize_bound Ws n W hw)
  · intro hne
    obtain ⟨x0, xs, rfl⟩ := List.exists_cons_of_ne_nil hX
    obtain ⟨W0, Wr, rfl⟩ := List.exists_cons_of_ne_nil hWne
    have hn : (((x0 :: xs)).headD []).length = n :=
      hU x0 (List.mem_cons_self _ _)
    unfold cwtFft
    rw [hn]
    rw [collect_map_ok _ id (W0 :: Wr) (fun W hw => by
      rw [if_neg (by have := (hW W hw).2; omega)]
      rfl)]
    simp only [List.map_cons]
    rw [cwtFftRow_full_err _ n x0 W0 (hW W0 (List.mem_cons_self _ _)).1
      (hW W0 (List.mem_cons_self _ _)).2
      (fsize_bound (W0 :: Wr) n W0 (List.mem_cons_self _ _)) hne]
    rfl

/-- Witness for the amended C4 at a concrete input (`fsize = 8 ≠ 4`). -/
theorem c4_amended_same_crops_full_errors_witness :
    ([[1, 0, 0, 0]] : List (List ℤ)) ≠ [] ∧ ([[1, 1]] : List (List ℤ)) ≠ [] ∧
      (∀ x ∈ ([[1, 0, 0, 0]] : List (List ℤ)), x.length = 4) ∧
      (∀ W ∈ ([[1, 1]] : List (List ℤ)), 1 ≤ W.length ∧ W.length ≤ 4) ∧
      cwtFsize 4 ([[1, 1]] : List (List ℤ)) ≠ 4 ∧
      cwtFft ([[1, 0, 0, 0]] : List (List ℤ)) [[1, 1]] ConvMode.full =
        Except.error errBroadcast :=
  ⟨by decide, by decide, by decide, by decide, by decide,
   (c4_amended_same_crops_full_errors ([[1, 0, 0, 0]] : List (List ℤ))
     [[1, 1]] 4 (by decide) (by decide) (by decide) (by decide)).2
     (by decide)⟩

/-! ### Claim C5: a too-long kernel aborts both engines -/

/-- Claim C5: if any kernel in the bank is strictly longer than the
(nonempty, uniform-length, nonzero-length) signals, `_cwt_fft` raises its
wavelet-too-long `ValueError` before yielding anything, and
`_cwt_convolve` likewise raises a `ValueError` during its first trial —
neither engine yields any per-trial coefficient array. -/
theorem c5_long_kernel_aborts {α : Type} [CommRing α]
    (X Ws : List (List α)) (n : ℕ) (mode : ConvMode)
    (hX : X ≠ []) (hU : ∀ x ∈ X, x.length = n) (hn : 1 ≤ n)
    (hlong : ∃ W ∈ Ws, n < W.length) :
    cwtFft X Ws mode = Except.error errWaveletTooLong ∧
      ∃ e, cwtConvolve X Ws mode = Except.error e := by
  obtain ⟨x0, xs, rfl⟩ := List.exists_cons_of_ne_nil hX
  have hn0 : (((x0 :: xs)).headD []).length = n :=
    hU x0 (List.mem_cons_self _ _)
  obtain ⟨Wb, hWb, hWblen⟩ := hlong
  constructor
  · unfold cwtFft
    rw [hn0]
    rw [collect_error_uniform errWaveletTooLong]
    · refine ⟨(if n < Wb.length then Except.error errWaveletTooLong
        else Except.ok Wb), List.mem_map_of_mem _ hWb, ?_⟩
      rw [if_pos hWblen]
    · intro y hy
      obtain ⟨W, _, rfl⟩ := List.mem_map.mp hy
      by_cases h : n < W.length
      · left; rw [if_pos h]
      · right; exact ⟨W, by rw [if_neg h]⟩
  · unfold cwtConvolve
    rw [hn0]
    have hinner : ∃ e, collect ((Ws).map
        (fun W => cwtConvRow n mode x0 W)) = Except.error e := by
      apply collect_error_of_exists
      refine ⟨cwtConvRow n mode x0 Wb, List.mem_map_of_mem _ hWb, ?_⟩
      refine ⟨errWaveletTooLong, ?_⟩
      unfold cwtConvRow
      rw [if_pos (by rw [hU x0 (List.mem_cons_self _ _)]; exact hWblen)]
    obtain ⟨e, he⟩ := hinner
    exact ⟨e, by simp only [List.map_cons, collect, he]⟩

/-- Witness for C5 at a concrete input: a 3-sample kernel against 2-sample
signals aborts both engines. -/
theorem c5_long_kernel_aborts_witness :
    ([[1, 2]] : List (List ℤ)) ≠ [] ∧
      (∀ x ∈ ([[1, 2]] : List (List ℤ)), x.length = 2) ∧ (1 : ℕ) ≤ 2 ∧
      (∃ W ∈ ([[1, 1, 1]] : List (List ℤ)), 2 < W.length) ∧
      cwtFft ([[1, 2]] : List (List ℤ)) [[1, 1, 1]] ConvMode.same =
        Except.error errWaveletTooLong ∧
      ∃ e, cwtConvolve ([[1, 2]] : List (List ℤ)) [[1, 1, 1]]
          ConvMode.same = Except.error e :=
  ⟨by decide, by decide, by decide, ⟨[1, 1, 1], by decide, by decide⟩,
   c5_long_kernel_aborts ([[1, 2]] : List (List ℤ)) [[1, 1, 1]] 2
     ConvMode.same (by decide) (by decide) (by decide)
     ⟨[1, 1, 1], by decide, by decide⟩⟩

/-- Witness for the amended C2 at a concrete input: FFT length 3 is not a
power of two and is smaller than the 5-sample signal, so the substitution
branch fires. -/
theorem c2_amended_value_error_iff_witness :
    isPowerOfTwoPy 3 = false ∧ 3 < ([1, 2, 3, 4, 5] : List ℤ).length ∧
      ([1, 2, 3, 4, 5] : List ℤ).length <
        nextPow2 ([1, 2, 3, 4, 5] : List ℤ).length ∧
      checkInputSt [1, 2, 3, 4, 5] (Option.some 3) =
        StRes.ok ([1, 2, 3, 4, 5] ++
            List.replicate (nextPow2 ([1, 2, 3, 4, 5] : List ℤ).length - 5) 0)
          (nextPow2 ([1, 2, 3, 4, 5] : List ℤ).length)
          (nextPow2 ([1, 2, 3, 4, 5] : List ℤ).length - 5) :=
  ⟨by decide, by decide, by decide,
   (c2_amended_value_error_iff [1, 2, 3, 4, 5] 3).2 (by decide) (by decide)
     (by decide)⟩

end MneTF

namespace MneTF

/-! ### Lemmas about kernel normalisation (claims C3, C8) -/

theorem list_sum_div {K : Type} [DivisionRing K] (l : List K) (c : K) :
    (l.map (fun z => z / c)).sum = l.sum / c := by
  induction l with
  | nil => simp
  | cons a xs ih => simp [ih, add_div]

theorem list_sum_sub_const (l : List ℂ) (c : ℂ) :
    (l.map (fun z => z - c)).sum = l.sum - (l.length : ℂ) * c := by
  induction l with
  | nil => simp
  | cons a xs ih =>
    simp only [List.map_cons, List.sum_cons, ih, List.length_cons]
    push_cast
    ring

theorem sumSq_nonneg (l : List ℂ) :
    0 ≤ (l.map (fun z => Complex.abs z ^ 2)).sum := by
  apply List.sum_nonneg
  intro x hx
  obtain ⟨z, _, rfl⟩ := List.mem_map.mp hx
  positivity

theorem l2norm_map_div (l : List ℂ) (r : ℝ) (hr : 0 ≤ r) :
    l2norm (l.map (fun z => z / ((r : ℝ) : ℂ))) = l2norm l / r := by
  unfold l2norm
  rw [List.map_map]
  have hcomp : ((fun z => Complex.abs z ^ 2) ∘ fun z => z / ((r : ℝ) : ℂ)) =
      fun z => Complex.abs z ^ 2 / r ^ 2 := by
    funext z
    simp only [Function.comp_apply, map_div₀, Complex.abs_ofReal,
      abs_of_nonneg hr, div_pow]
  rw [hcomp]
  have hmm : (l.map fun z => Complex.abs z ^ 2 / r ^ 2) =
      (l.map fun z => Complex.abs z ^ 2).map (fun v => v / r ^ 2) := by
    rw [List.map_map]
    rfl
  rw [hmm, list_sum_div, Real.sqrt_div (sumSq_nonneg l), Real.sqrt_sq hr]

theorem l2norm_normalizeK (l : List ℂ) (h : l2norm l ≠ 0) :
    l2norm (normalizeK l) = Real.sqrt 2 := by
  have hN : 0 ≤ l2norm l := Real.sqrt_nonneg _
  have hNpos : 0 < l2norm l := lt_of_le_of_ne hN (Ne.symm h)
  have h05 : Real.sqrt 0.5 ≠ 0 := by
    rw [Real.sqrt_ne_zero']
    norm_num
  unfold normalizeK
  rw [l2norm_map_div l _ (mul_nonneg (Real.sqrt_nonneg _) hN)]
  have hdiv : l2norm l / (Real.sqrt 0.5 * l2norm l) = 1 / Real.sqrt 0.5 := by
    field_simp
    ring
  rw [hdiv, show (0.5 : ℝ) = 2⁻¹ by norm_num, Real.sqrt_inv, one_div, inv_inv]

theorem dpssRaw_zm_sum (dpss : ℕ → ℝ → ℕ → List (List ℝ))
    (sfreq f nc tb : ℝ) (nTaps m : ℕ) :
    (dpssRaw dpss sfreq f nc tb nTaps m true).sum = 0 := by
  unfold dpssRaw
  simp only [if_pos]
  rw [list_sum_sub_const]
  set Wk := List.zipWith (fun o tap => o * ((tap : ℝ) : ℂ))
    ((arange0 (nc / f) (1 / sfreq)).map (fun (u : ℝ) =>
      Complex.exp (2 * Complex.I * (Real.pi : ℂ) * (f : ℂ) *
        ((u - nc / f / 2 : ℝ) : ℂ))))
    ((dpss (arange0 (nc / f) (1 / sfreq)).length (tb / 2) nTaps).getD m [])
    with hWk
  by_cases hlen : Wk.length = 0
  · rw [List.length_eq_zero] at hlen
    rw [hlen]
    simp
  · have hne : ((Wk.length : ℂ)) ≠ 0 := Nat.cast_ne_zero.mpr hlen
    field_simp

theorem dpssKernel_zm_sum (dpss : ℕ → ℝ → ℕ → List (List ℝ))
    (sfreq f nc tb : ℝ) (nTaps m : ℕ) :
    (dpssKernel dpss sfreq f nc tb nTaps m true).sum = 0 := by
  unfold dpssKernel normalizeK
  rw [list_sum_div, dpssRaw_zm_sum, zero_div]

/-! ### Claim C3: kernel norm and zero-mean DC -/

/-- Concrete evaluation of the Morlet builder at the degenerate
single-sample grid (`sfreq = 1`, `f = 1`, `n_cycles = 1`,
`zero_mean = True`): the time grid is the single point `0`. -/
theorem morletRaw_eval_one :
    morletRaw 1 1 1 Option.none true =
      [(1 : ℂ) - ((Real.exp (-(1 / 2)) : ℝ) : ℂ)] := by
  have harg : (5 * ((1 : ℝ) / (2 * Real.pi * 1))) / (1 / 1) =
      5 / (2 * Real.pi) := by
    rw [mul_one, one_div_one, div_one, mul_one_div]
  have hceil : ⌈(5 * ((1 : ℝ) / (2 * Real.pi * 1))) / (1 / 1)⌉₊ = 1 := by
    rw [harg]
    have hpos : 0 < 5 / (2 * Real.pi) := by positivity
    have hle : 5 / (2 * Real.pi) ≤ 1 := by
      rw [div_le_one (by positivity)]
      nlinarith [Real.pi_gt_three]
    have hup : ⌈(5 / (2 * Real.pi))⌉₊ ≤ 1 :=
      Nat.ceil_le.mpr (by exact_mod_cast hle)
    have hlo : 0 < ⌈(5 / (2 * Real.pi))⌉₊ := Nat.ceil_pos.mpr hpos
    omega
  have hgrid : arange0 (5 * ((1 : ℝ) / (2 * Real.pi * 1))) (1 / 1) =
      [(0 : ℝ)] := by
    unfold arange0
    rw [hceil]
    simp [List.range_succ]
  simp only [morletRaw]
  rw [hgrid]
  simp only [List.reverse_cons, List.reverse_nil, List.nil_append,
    List.map_cons, List.map_nil, neg_zero, List.drop_succ_cons,
    List.drop_nil, List.append_nil]
  have hoffarg : (-2 * (Real.pi * 1 * ((1 : ℝ) / (2 * Real.pi * 1))) ^ 2) =
      -(1 / 2) := by
    have hinner : Real.pi * 1 * ((1 : ℝ) / (2 * Real.pi * 1)) = 1 / 2 := by
      field_simp
      ring
    rw [hinner]
    norm_num
  have henvarg : (-((0 : ℝ) ^ 2) / (2 * ((1 : ℝ) / (2 * Real.pi * 1)) ^ 2)) =
      0 := by
    norm_num
  rw [hoffarg, henvarg]
  simp

theorem exp_half_lt_one : Real.exp (-(1 / 2)) < 1 :=
  Real.exp_lt_one_iff.mpr (by norm_num)

theorem morletRaw_norm_one :
    l2norm (morletRaw 1 1 1 Option.none true) =
      1 - Real.exp (-(1 / 2)) := by
  rw [morletRaw_eval_one]
  unfold l2norm
  have hz : (1 : ℂ) - ((Real.exp (-(1 / 2)) : ℝ) : ℂ) =
      (((1 - Real.exp (-(1 / 2)) : ℝ)) : ℂ) := by
    push_cast
    ring
  rw [hz]
  simp only [List.map_cons, List.map_nil, List.sum_cons, List.sum_nil,
    add_zero, Complex.abs_ofReal]
  have hnn : (0 : ℝ) ≤ 1 - Real.exp (-(1 / 2)) := by
    have := exp_half_lt_one
    linarith
  rw [abs_of_nonneg hnn, Real.sqrt_sq hnn]

theorem morletRaw_norm_one_ne_zero :
    l2norm (morletRaw 1 1 1 Option.none true) ≠ 0 := by
  rw [morletRaw_norm_one]
  have := exp_half_lt_one
  intro hcontra
  linarith [hcontra]

theorem sqrt_half_mul_sqrt_two : Real.sqrt 2 * Real.sqrt 0.5 = 1 := by
  rw [show (0.5 : ℝ) = 2⁻¹ by norm_num, Real.sqrt_inv]
  exact mul_inv_cancel₀ (by rw [Real.sqrt_ne_zero']; norm_num)

theorem morletKernel_eval_one :
    morletKernel 1 1 1 Option.none true = [((Real.sqrt 2 : ℝ) : ℂ)] := by
  unfold morletKernel normalizeK
  rw [morletRaw_norm_one, morletRaw_eval_one]
  simp only [List.map_cons, List.map_nil]
  congr 1
  have hz : (1 : ℂ) - ((Real.exp (-(1 / 2)) : ℝ) : ℂ) =
      (((1 - Real.exp (-(1 / 2)) : ℝ)) : ℂ) := by
    push_cast
    ring
  rw [hz, ← Complex.ofReal_div]
  congr 1
  have hA : (0 : ℝ) < 1 - Real.exp (-(1 / 2)) := by
    have := exp_half_lt_one
    linarith
  have h05 : Real.sqrt 0.5 ≠ 0 := by
    rw [Real.sqrt_ne_zero']
    norm_num
  rw [div_eq_iff (mul_ne_zero h05 (ne_of_gt hA))]
  rw [← mul_assoc, sqrt_half_mul_sqrt_two, one_mul]

theorem morlet_bank_eval_one :
    morlet 1 [1] [1] Option.none true =
      Except.ok [[((Real.sqrt 2 : ℝ) : ℂ)]] := by
  unfold morlet
  have hc : ([1] : List ℝ).length = 1 ∨
      ([1] : List ℝ).length = ([1] : List ℝ).length := Or.inl rfl
  rw [if_pos hc]
  simp only [List.enum, List.enumFrom, List.map_cons, List.map_nil]
  have hcyc : cycSel [1] 0 = 1 := by
    unfold cycSel
    simp
  rw [hcyc, morletKernel_eval_one]

/-- Counterexample to C3 as stated: at `sfreq = 1`, `freqs = [1]`,
`n_cycles = 1`, `zero_mean = True` the returned kernel is the single
sample `sqrt 2`.  Its L2 norm is `sqrt 2`, which differs from the claimed
`sqrt 0.5` by more than `1/2` (beyond any floating tolerance), and its DC
component (sum of samples) has magnitude `sqrt 2 > 1/2`, not below a
small tolerance. -/
theorem c3_counterexample :
    morlet 1 [1] [1] Option.none true =
      Except.ok [[((Real.sqrt 2 : ℝ) : ℂ)]] ∧
    l2norm [((Real.sqrt 2 : ℝ) : ℂ)] = Real.sqrt 2 ∧
    Complex.abs (([((Real.sqrt 2 : ℝ) : ℂ)]).sum) = Real.sqrt 2 ∧
    (1 : ℝ) / 2 < |Real.sqrt 2 - Real.sqrt 0.5| ∧
    (1 : ℝ) / 2 < Real.sqrt 2 := by
  have hs2 : (1.4 : ℝ) < Real.sqrt 2 := by
    rw [show (1.4 : ℝ) = 1.4 from rfl] at *
    have := (Real.lt_sqrt (by norm_num : (0 : ℝ) ≤ 1.4)).mpr
      (by norm_num : (1.4 : ℝ) ^ 2 < 2)
    exact this
  have hs05 : Real.sqrt 0.5 < 0.8 := by
    rw [Real.sqrt_lt' (by norm_num : (0 : ℝ) < 0.8)]
    norm_num
  have hs05nn : 0 ≤ Real.sqrt 0.5 := Real.sqrt_nonneg _
  refine ⟨morlet_bank_eval_one, ?_, ?_, ?_, ?_⟩
  · unfold l2norm
    simp only [List.map_cons, List.map_nil, List.sum_cons, List.sum_nil,
      add_zero, Complex.abs_ofReal, abs_of_nonneg (Real.sqrt_nonneg (2 : ℝ))]
    exact Real.sqrt_sq (Real.sqrt_nonneg _)
  · simp only [List.sum_cons, List.sum_nil, add_zero, Complex.abs_ofReal]
    exact abs_of_nonneg (Real.sqrt_nonneg _)
  · rw [abs_of_nonneg (by linarith)]
    linarith
  · linarith

/-- Claim C3 (amended): every kernel returned by the Morlet builder or the
multitaper builder whose unnormalised version is nonzero has L2 norm
exactly `sqrt 2` (the code divides by `sqrt(0.5) * ‖W‖`, not by
`sqrt(2) * ‖W‖`); the bank entries are exactly the per-frequency kernels
in order; and for `zero_mean = True` the multitaper kernel's DC component
(sum of samples) is exactly zero, because the sampled mean is subtracted
(the Morlet builder only subtracts the continuous-time offset
`exp(-2(π f σ_t)²)`, which does not make the sampled DC small in
general — see the counterexample). -/
theorem c3_amended_norm_sqrt_two :
    (∀ (sfreq f nc : ℝ) (sigma : Option ℝ) (zm : Bool),
      l2norm (morletRaw sfreq f nc sigma zm) ≠ 0 →
      l2norm (morletKernel sfreq f nc sigma zm) = Real.sqrt 2) ∧
    (∀ (sfreq : ℝ) (freqs ncycles : List ℝ) (sigma : Option ℝ) (zm : Bool)
        (Ws : List (List ℂ)),
      morlet sfreq freqs ncycles sigma zm = Except.ok Ws →
      ∀ k, k < Ws.length →
        Ws.getD k [] =
          morletKernel sfreq (freqs.getD k 0) (cycSel ncycles k) sigma zm) ∧
    (∀ (dpss : ℕ → ℝ → ℕ → List (List ℝ)) (sfreq f nc tb : ℝ)
        (nTaps m : ℕ) (zm : Bool),
      l2norm (dpssRaw dpss sfreq f nc tb nTaps m zm) ≠ 0 →
      l2norm (dpssKernel dpss sfreq f nc tb nTaps m zm) = Real.sqrt 2) ∧
    (∀ (dpss : ℕ → ℝ → ℕ → List (List ℝ)) (sfreq f nc tb : ℝ)
        (nTaps m : ℕ),
      (dpssKernel dpss sfreq f nc tb nTaps m true).sum = 0) := by
  refine ⟨?_, ?_, ?_, ?_⟩
  · intro sfreq f nc sigma zm h
    exact l2norm_normalizeK _ h
  · intro sfreq freqs ncycles sigma zm Ws hok k hk
    unfold morlet at hok
    split_ifs at hok with hc
    · have hWs : Ws = freqs.enum.map (fun p =>
          morletKernel sfreq p.2 (cycSel ncycles p.1) sigma zm) :=
        (Except.ok.inj hok).symm
      subst hWs
      have hk2 : k < freqs.length := by
        simpa [List.enum_length] using hk
      simp only [List.getD_eq_getElem?_getD, List.getElem?_map,
        List.getElem?_enum, List.getElem?_eq_getElem hk2,
        Option.map_some', Option.getD_some]
  · intro dpss sfreq f nc tb nTaps m zm h
    exact l2norm_normalizeK _ h
  · intro dpss sfreq f nc tb nTaps m
    exact dpssKernel_zm_sum dpss sfreq f nc tb nTaps m

/-- Witness for the amended C3: the degenerate one-sample Morlet kernel
has nonzero unnormalised norm, and its normalised norm is `sqrt 2`;
a concrete zero-mean multitaper kernel has exactly zero DC. -/
theorem c3_amended_norm_sqrt_two_witness :
    l2norm (morletRaw 1 1 1 Option.none true) ≠ 0 ∧
    l2norm (morletKernel 1 1 1 Option.none true) = Real.sqrt 2 ∧
    (dpssKernel (fun n _ k => List.replicate k (List.replicate n 1))
      1 1 1 4 3 0 true).sum = 0 :=
  ⟨morletRaw_norm_one_ne_zero,
   c3_amended_norm_sqrt_two.1 1 1 1 Option.none true morletRaw_norm_one_ne_zero,
   c3_amended_norm_sqrt_two.2.2.2 _ 1 1 1 4 3 0⟩

end MneTF

namespace MneTF

/-! ### Entry-level lemmas for matrices, decimation and folds (claim C6) -/

theorem getD_map_nil {β γ : Type} (g : List β → List γ) (hg : g [] = [])
    (l : List (List β)) : ∀ i, (l.map g).getD i [] = g (l.getD i []) := by
  induction l with
  | nil => intro i; simp [hg]
  | cons a xs ih =>
    intro i
    cases i with
    | zero => simp
    | succ n => simpa using ih n

theorem getD_map_zero {β γ : Type} [Zero β] [Zero γ] (f : β → γ)
    (hf : f 0 = 0) (l : List β) : ∀ j, (l.map f).getD j 0 = f (l.getD j 0) := by
  induction l with
  | nil => intro j; simp [hf]
  | cons a xs ih =>
    intro j
    cases j with
    | zero => simp
    | succ n => simpa using ih n

theorem at2_mapmap {β γ : Type} [Zero β] [Zero γ] (f : β → γ) (hf : f 0 = 0)
    (A : List (List β)) (i j : ℕ) :
    at2 (A.map (List.map f)) i j = f (at2 A i j) := by
  unfold at2
  rw [getD_map_nil (List.map f) rfl A i, getD_map_zero f hf _ j]

theorem at1_zipWith_add {β : Type} [AddMonoid β] :
    ∀ (r s : List β) (j : ℕ), j < r.length → j < s.length →
      (List.zipWith (fun a b => a + b) r s).getD j 0 =
        r.getD j 0 + s.getD j 0 := by
  intro r
  induction r with
  | nil => intro s j h _; simp at h
  | cons a rs ih =>
    intro s j h1 h2
    cases s with
    | nil => simp at h2
    | cons b ss =>
      cases j with
      | zero => simp
      | succ n =>
        simp only [List.zipWith_cons_cons, List.getD_cons_succ]
        exact ih ss n (by simpa using h1) (by simpa using h2)

theorem mem_madd_rows {β : Type} [AddMonoid β] :
    ∀ (A B : List (List β)) (nc : ℕ),
      (∀ r ∈ A, r.length = nc) → (∀ r ∈ B, r.length = nc) →
      ∀ r ∈ madd A B, r.length = nc := by
  intro A
  induction A with
  | nil => intro B nc _ _ r hr; simp [madd] at hr
  | cons a As ih =>
    intro B nc hA hB r hr
    cases B with
    | nil => simp [madd] at hr
    | cons b Bs =>
      simp only [madd, List.zipWith_cons_cons, List.mem_cons] at hr
      rcases hr with rfl | hr
      · rw [List.length_zipWith, hA a (List.mem_cons_self _ _),
          hB b (List.mem_cons_self _ _)]
        simp
      · exact ih Bs nc (fun q hq => hA q (List.mem_cons_of_mem _ hq))
          (fun q hq => hB q (List.mem_cons_of_mem _ hq)) r hr

theorem madd_dims {β : Type} [AddMonoid β] (A B : List (List β)) (F nc : ℕ)
    (hA : dims2 A F nc) (hB : dims2 B F nc) : dims2 (madd A B) F nc := by
  refine ⟨?_, mem_madd_rows A B nc hA.2 hB.2⟩
  unfold madd
  rw [List.length_zipWith, hA.1, hB.1, min_self]

theorem getD_row_length {β : Type} (A : List (List β)) (F nc i : ℕ)
    (hA : dims2 A F nc) (hi : i < F) : (A.getD i []).length = nc := by
  have hmem : A.getD i [] ∈ A := by
    rw [List.getD_eq_getElem A [] (by rw [hA.1]; exact hi)]
    exact List.getElem_mem _
  exact hA.2 _ hmem

theorem at2_madd {β : Type} [AddMonoid β] :
    ∀ (A B : List (List β)) (i j : ℕ), i < A.length → i < B.length →
      j < (A.getD i []).length → j < (B.getD i []).length →
      at2 (madd A B) i j = at2 A i j + at2 B i j := by
  intro A
  induction A with
  | nil => intro B i j h _ _ _; simp at h
  | cons a As ih =>
    intro B i j h1 h2 h3 h4
    cases B with
    | nil => simp at h2
    | cons b Bs =>
      cases i with
      | zero =>
        simp only [madd, List.zipWith_cons_cons]
        unfold at2
        simp only [List.getD_cons_zero]
        exact at1_zipWith_add a b j (by simpa using h3) (by simpa using h4)
      | succ n =>
        simp only [madd, List.zipWith_cons_cons]
        unfold at2
        simp only [List.getD_cons_succ]
        have h3n : j < (As.getD n []).length := by simpa using h3
        have h4n : j < (Bs.getD n []).length := by simpa using h4
        have := ih Bs n j (by simpa using h1) (by simpa using h2) h3n h4n
        unfold at2 at this
        exact this

theorem getD_replicate_eval {β : Type} (a d : β) :
    ∀ n i, (List.replicate n a).getD i d = if i < n then a else d := by
  intro n
  induction n with
  | zero => intro i; simp
  | succ m ih =>
    intro i
    cases i with
    | zero => simp
    | succ k =>
      rw [List.replicate_succ, List.getD_cons_succ, ih k]
      simp [Nat.succ_lt_succ_iff]

theorem zeros2_dims {β : Type} [Zero β] (F nc : ℕ) :
    dims2 (zeros2 (α := β) F nc) F nc := by
  constructor
  · simp [zeros2]
  · intro r hr
    rw [List.eq_of_mem_replicate hr]
    simp

theorem at2_zeros2 {β : Type} [Zero β] (F nc i j : ℕ) :
    at2 (zeros2 (α := β) F nc) i j = 0 := by
  unfold at2 zeros2
  rw [getD_replicate_eval]
  by_cases hi : i < F
  · rw [if_pos hi, getD_replicate_eval]
    by_cases hj : j < nc
    · rw [if_pos hj]
    · rw [if_neg hj]
  · rw [if_neg hi]
    simp

theorem foldl_pair_fst {σ τ ρ : Type} (F1 : σ → ρ → σ) (F2 : τ → ρ → τ) :
    ∀ (L : List ρ) (Z1 : σ) (Z2 : τ),
      (L.foldl (fun acc t => (F1 acc.1 t, F2 acc.2 t)) (Z1, Z2)).1 =
        L.foldl F1 Z1 := by
  intro L
  induction L with
  | nil => intro Z1 Z2; rfl
  | cons t ts ih => intro Z1 Z2; exact ih (F1 Z1 t) (F2 Z2 t)

theorem foldl_pair_snd {σ τ ρ : Type} (F1 : σ → ρ → σ) (F2 : τ → ρ → τ) :
    ∀ (L : List ρ) (Z1 : σ) (Z2 : τ),
      (L.foldl (fun acc t => (F1 acc.1 t, F2 acc.2 t)) (Z1, Z2)).2 =
        L.foldl F2 Z2 := by
  intro L
  induction L with
  | nil => intro Z1 Z2; rfl
  | cons t ts ih => intro Z1 Z2; exact ih (F1 Z1 t) (F2 Z2 t)

theorem foldl_madd_at2 {β : Type} [AddMonoid β]
    (g : List (List ℂ) → List (List β)) (F nc : ℕ) :
    ∀ (L : List (List (List ℂ))) (Z : List (List β)),
      (∀ t ∈ L, dims2 (g t) F nc) → dims2 Z F nc →
      ∀ i j, i < F → j < nc →
        at2 (L.foldl (fun acc t => madd acc (g t)) Z) i j =
          at2 Z i j + (L.map (fun t => at2 (g t) i j)).sum := by
  intro L
  induction L with
  | nil => intro Z _ _ i j _ _; simp
  | cons t ts ih =>
    intro Z hg hZ i j hi hj
    simp only [List.foldl_cons, List.map_cons, List.sum_cons]
    have hgt := hg t (List.mem_cons_self _ _)
    have hZ2 : dims2 (madd Z (g t)) F nc := madd_dims Z (g t) F nc hZ hgt
    rw [ih (madd Z (g t)) (fun q hq => hg q (List.mem_cons_of_mem _ hq))
      hZ2 i j hi hj]
    rw [at2_madd Z (g t) i j (by rw [hZ.1]; exact hi)
      (by rw [hgt.1]; exact hi)
      (by rw [getD_row_length Z F nc i hZ hi]; exact hj)
      (by rw [getD_row_length (g t) F nc i hgt hi]; exact hj)]
    rw [add_assoc]

theorem mem_decimate {α : Type} (d : ℕ) :
    ∀ (l : List α) (x : α), x ∈ decimate d l → x ∈ l := by
  have H : ∀ (n : ℕ) (l : List α), l.length = n →
      ∀ x, x ∈ decimate d l → x ∈ l := by
    intro n
    induction n using Nat.strong_induction_on with
    | _ n ih =>
      intro l hn x hx
      cases l with
      | nil => simp [decimate] at hx
      | cons a rest =>
        rw [decimate] at hx
        rcases List.mem_cons.mp hx with rfl | hx2
        · exact List.mem_cons_self _ _
        · have hlt : (rest.drop (d - 1)).length < n := by
            rw [← hn]
            simp only [List.length_drop, List.length_cons]
            omega
          have := ih _ hlt (rest.drop (d - 1)) rfl x hx2
          exact List.mem_cons_of_mem _ (List.drop_subset _ _ this)
  intro l x hx
  exact H l.length l rfl x hx

theorem decimate_length {α : Type} (d : ℕ) (hd : 1 ≤ d) :
    ∀ (l : List α), (decimate d l).length = (l.length + d - 1) / d := by
  have H : ∀ (n : ℕ) (l : List α), l.length = n →
      (decimate d l).length = (l.length + d - 1) / d := by
    intro n
    induction n using Nat.strong_induction_on with
    | _ n ih =>
      intro l hn
      cases l with
      | nil =>
        simp only [decimate, List.length_nil, Nat.zero_add]
        rw [Nat.div_eq_of_lt (by omega)]
      | cons a rest =>
        rw [decimate]
        simp only [List.length_cons]
        simp only [List.length_cons] at hn
        have hlt : (rest.drop (d - 1)).length < n := by
          simp only [List.length_drop]
          omega
        rw [ih _ hlt (rest.drop (d - 1)) rfl]
        simp only [List.length_drop]
        by_cases hcase : d - 1 ≤ rest.length
        · have heq : rest.length - (d - 1) + d - 1 = rest.length := by omega
          rw [heq]
          have heq2 : rest.length + 1 + d - 1 = rest.length + d := by omega
          rw [heq2, Nat.add_div_right _ (by omega)]
        · have heq : rest.length - (d - 1) = 0 := by omega
          rw [heq]
          have h1 : (0 + d - 1) / d = 0 := Nat.div_eq_of_lt (by omega)
          rw [h1]
          have heq2 : rest.length + 1 + d - 1 = rest.length + d := by omega
          rw [heq2, Nat.add_div_right _ (by omega),
            Nat.div_eq_of_lt (by omega : rest.length < d)]
  intro l
  exact H l.length l rfl

theorem ceil_div_eq_nOut (d n : ℕ) (hd : 1 ≤ d) :
    (n + d - 1) / d = nOut n d := by
  unfold nOut
  by_cases hr : n % d = 0
  · simp only [hr, ne_eq, not_true_eq_false, if_neg, if_false, add_zero,
      not_false_eq_true]
    obtain ⟨q, hq⟩ := Nat.dvd_of_mod_eq_zero hr
    subst hq
    rw [show d * q + d - 1 = d * q + (d - 1) by omega,
      Nat.mul_add_div (by omega), Nat.div_eq_of_lt (by omega), add_zero,
      Nat.mul_div_cancel_left q (by omega)]
  · simp only [hr, ne_eq, not_false_eq_true, if_pos]
    have hmod := Nat.div_add_mod n d
    have hlt := Nat.mod_lt n (show 0 < d by omega)
    have hd2 : d * (n / d + 1) = d * (n / d) + d := by ring
    have h1 : n + d - 1 = d * (n / d + 1) + (n % d - 1) := by omega
    rw [h1, Nat.mul_add_div (by omega),
      Nat.div_eq_of_lt (by omega : n % d - 1 < d)]

theorem decimate_length_nOut {α : Type} (d : ℕ) (hd : 1 ≤ d) (l : List α) :
    (decimate d l).length = nOut l.length d := by
  rw [decimate_length d hd l, ceil_div_eq_nOut d l.length hd]

theorem abs_list_sum_le :
    ∀ l : List ℂ, Complex.abs l.sum ≤ (l.map Complex.abs).sum := by
  intro l
  induction l with
  | nil => simp
  | cons a xs ih =>
    simp only [List.sum_cons, List.map_cons]
    calc Complex.abs (a + xs.sum) ≤ Complex.abs a + Complex.abs xs.sum :=
          Complex.abs.add_le a xs.sum
      _ ≤ Complex.abs a + (xs.map Complex.abs).sum := by linarith

theorem list_sum_const_one (l : List ℂ) :
    (l.map (fun _ => (1 : ℝ))).sum = l.length := by
  induction l with
  | nil => simp
  | cons a xs ih => simp [ih, add_comm]

end MneTF

namespace MneTF

/-! ### Claim C6: the reduction layer -/

theorem cwtSame_ok_dims (useFft : Bool) (X Ws : List (List ℂ)) (n : ℕ)
    (hX : X ≠ []) (hU : ∀ x ∈ X, x.length = n)
    (hW : ∀ W ∈ Ws, 1 ≤ W.length ∧ W.length ≤ n) :
    ∃ T, cwtSame useFft X Ws = Except.ok T ∧ T.length = X.length ∧
      ∀ C ∈ T, C.length = Ws.length ∧ ∀ r ∈ C, r.length = n := by
  cases useFft with
  | true =>
    have heq : cwtSame true X Ws = cwtFft X Ws ConvMode.same := by
      unfold cwtSame
      rw [if_pos rfl]
    refine ⟨_, heq.trans (cwtFft_same_ok X Ws n hX hU hW), by simp, ?_⟩
    intro C hC
    obtain ⟨x, _, rfl⟩ := List.mem_map.mp hC
    refine ⟨by simp, ?_⟩
    intro r hr
    obtain ⟨W, hw, rfl⟩ := List.mem_map.mp hr
    exact fftSameRow_length _ n x W (hW W hw).1 (hW W hw).2
      (fsize_bound Ws n W hw)
  | false =>
    have heq : cwtSame false X Ws = cwtConvolve X Ws ConvMode.same := by
      unfold cwtSame
      rw [if_neg (by simp)]
    refine ⟨_, heq.trans (cwtConvolve_same_ok X Ws n hU hW), by simp, ?_⟩
    intro C hC
    obtain ⟨x, hx, rfl⟩ := List.mem_map.mp hC
    refine ⟨by simp, ?_⟩
    intro r hr
    obtain ⟨W, hw, rfl⟩ := List.mem_map.mp hr
    rw [npConvolve_same_length x W (hW W hw).1
      (by rw [hU x hx]; exact (hW W hw).2)]
    exact hU x hx

theorem decim_map_dims {β : Type} (f : ℂ → β) (t : List (List ℂ))
    (F n d : ℕ) (hd : 1 ≤ d) (ht : dims2 t F n) :
    dims2 ((t.map (decimate d)).map (List.map f)) F (nOut n d) := by
  obtain ⟨htlen, htrows⟩ := ht
  constructor
  · simp [htlen]
  · intro r hr
    obtain ⟨r2, hr2, rfl⟩ := List.mem_map.mp hr
    obtain ⟨r3, hr3, rfl⟩ := List.mem_map.mp hr2
    rw [List.length_map, decimate_length_nOut d hd r3, htrows r3 hr3]

theorem foldl_madd_pair {β γ ρ : Type} [Add β] [Add γ]
    (g1 : ρ → List (List β)) (g2 : ρ → List (List γ)) :
    ∀ (L : List ρ) (Z1 : List (List β)) (Z2 : List (List γ)),
      L.foldl (fun acc t => (madd acc.1 (g1 t), madd acc.2 (g2 t))) (Z1, Z2) =
        (L.foldl (fun acc t => madd acc (g1 t)) Z1,
         L.foldl (fun acc t => madd acc (g2 t)) Z2) := by
  intro L
  induction L with
  | nil => intro Z1 Z2; rfl
  | cons t ts ih => intro Z1 Z2; exact ih (madd Z1 (g1 t)) (madd Z2 (g2 t))

/-- Claim C6: for a nonempty batch whose transform succeeds with all
coefficients nonzero, `_time_frequency` returns `psd` equal to the
per-entry mean over trials of the squared magnitudes of the decimated
coefficients, and `plf` equal to the magnitude of the mean over trials of
the unit-normalised decimated coefficients, with every `plf` entry in
`[0, 1]`. -/
theorem c6_time_frequency (X Ws : List (List ℂ)) (useFft : Bool) (d n : ℕ)
    (T : List (List (List ℂ)))
    (hX : X ≠ []) (hU : ∀ x ∈ X, x.length = n)
    (hW : ∀ W ∈ Ws, 1 ≤ W.length ∧ W.length ≤ n)
    (hd : 1 ≤ d)
    (hT : cwtSame useFft X Ws = Except.ok T)
    (hnz : ∀ C ∈ T, ∀ r ∈ C, ∀ z ∈ r, z ≠ 0) :
    ∃ P L, timeFrequency X Ws useFft d = Except.ok (P, L) ∧
      ∀ i j, i < Ws.length → j < nOut n d →
        at2 P i j =
          ((T.map (fun C =>
            Complex.abs (at2 (C.map (decimate d)) i j) ^ 2)).sum) /
            (X.length : ℝ) ∧
        at2 L i j =
          Complex.abs ((T.map (fun C =>
            at2 (C.map (decimate d)) i j /
              ((Complex.abs (at2 (C.map (decimate d)) i j) : ℝ) : ℂ))).sum /
            ((X.length : ℕ) : ℂ)) ∧
        0 ≤ at2 L i j ∧ at2 L i j ≤ 1 := by
  obtain ⟨T2, hT2, hTlen, hTdims⟩ := cwtSame_ok_dims useFft X Ws n hX hU hW
  rw [hT] at hT2
  have hTT : T = T2 := Except.ok.inj hT2
  subst hTT
  obtain ⟨x0, xs, rfl⟩ := List.exists_cons_of_ne_nil hX
  have hx0 : x0.length = n := hU x0 (List.mem_cons_self _ _)
  have hlenpos : (0 : ℝ) < (((x0 :: xs) : List (List ℂ)).length : ℝ) := by
    simp only [List.length_cons]
    positivity
  have hg1dims : ∀ t ∈ T, dims2 ((t.map (decimate d)).map
      (List.map (fun z => Complex.abs z ^ 2))) Ws.length (nOut n d) :=
    fun t ht => decim_map_dims _ t Ws.length n d hd
      ⟨(hTdims t ht).1, (hTdims t ht).2⟩
  have hg2dims : ∀ t ∈ T, dims2 ((t.map (decimate d)).map
      (List.map (fun z => z / ((Complex.abs z : ℝ) : ℂ)))) Ws.length
      (nOut n d) :=
    fun t ht => decim_map_dims _ t Ws.length n d hd
      ⟨(hTdims t ht).1, (hTdims t ht).2⟩
  refine ⟨(T.foldl (fun acc t => madd acc ((t.map (decimate d)).map
      (List.map (fun z => Complex.abs z ^ 2))))
      (zeros2 Ws.length (nOut n d))).map
      (List.map (fun v => v / (((x0 :: xs) : List (List ℂ)).length : ℝ))),
    (T.foldl (fun acc t => madd acc ((t.map (decimate d)).map
      (List.map (fun z => z / ((Complex.abs z : ℝ) : ℂ)))))
      (zeros2 Ws.length (nOut n d))).map
      (List.map (fun z =>
        Complex.abs z / (((x0 :: xs) : List (List ℂ)).length : ℝ))),
    ?_, ?_⟩
  · unfold timeFrequency
    rw [hT]
    simp only [List.headD_cons, hx0]
    rw [foldl_madd_pair]
  · intro i j hi hj
    have hentry1 : ∀ t ∈ T,
        at2 ((t.map (decimate d)).map
          (List.map (fun z => Complex.abs z ^ 2))) i j =
          Complex.abs (at2 (t.map (decimate d)) i j) ^ 2 :=
      fun t _ => at2_mapmap _ (by simp) _ i j
    have hentry2 : ∀ t ∈ T,
        at2 ((t.map (decimate d)).map
          (List.map (fun z => z / ((Complex.abs z : ℝ) : ℂ)))) i j =
          at2 (t.map (decimate d)) i j /
            ((Complex.abs (at2 (t.map (decimate d)) i j) : ℝ) : ℂ) :=
      fun t _ => at2_mapmap _ (by simp) _ i j
    have hunit_ne : ∀ t ∈ T, at2 (t.map (decimate d)) i j ≠ 0 := by
      intro t ht
      have htd := hTdims t ht
      have hrow : t.getD i [] ∈ t := by
        rw [List.getD_eq_getElem t [] (by rw [htd.1]; exact hi)]
        exact List.getElem_mem _
      have hrowlen : (t.getD i []).length = n := htd.2 _ hrow
      have hat : at2 (t.map (decimate d)) i j =
          (decimate d (t.getD i [])).getD j 0 := by
        unfold at2
        rw [getD_map_nil (decimate d) (by simp [decimate]) t i]
      rw [hat]
      have hjlen : j < (decimate d (t.getD i [])).length := by
        rw [decimate_length_nOut d hd, hrowlen]
        exact hj
      have hmem : (decimate d (t.getD i [])).getD j 0 ∈
          decimate d (t.getD i []) := by
        rw [List.getD_eq_getElem _ _ hjlen]
        exact List.getElem_mem _
      exact hnz t ht _ hrow _ (mem_decimate d _ _ hmem)
    have habs_unit : ∀ t ∈ T,
        Complex.abs (at2 (t.map (decimate d)) i j /
          ((Complex.abs (at2 (t.map (decimate d)) i j) : ℝ) : ℂ)) = 1 := by
      intro t ht
      rw [map_div₀, Complex.abs_ofReal,
        abs_of_nonneg (Complex.abs.nonneg _),
        div_self (Complex.abs.ne_zero_iff.mpr (hunit_ne t ht))]
    refine ⟨?_, ?_, ?_, ?_⟩
    · rw [at2_mapmap (fun v =>
          v / (((x0 :: xs) : List (List ℂ)).length : ℝ)) (zero_div _) _ i j,
        foldl_madd_at2 _ Ws.length (nOut n d) T _ hg1dims
          (zeros2_dims _ _) i j hi hj,
        at2_zeros2, zero_add,
        List.map_congr_left hentry1]
    · rw [at2_mapmap (fun z => Complex.abs z /
          (((x0 :: xs) : List (List ℂ)).length : ℝ)) (by simp) _ i j,
        foldl_madd_at2 _ Ws.length (nOut n d) T _ hg2dims
          (zeros2_dims _ _) i j hi hj,
        at2_zeros2, zero_add,
        List.map_congr_left hentry2,
        map_div₀, Complex.abs_natCast]
    · rw [at2_mapmap (fun z => Complex.abs z /
          (((x0 :: xs) : List (List ℂ)).length : ℝ)) (by simp) _ i j]
      positivity
    · rw [at2_mapmap (fun z => Complex.abs z /
          (((x0 :: xs) : List (List ℂ)).length : ℝ)) (by simp) _ i j,
        foldl_madd_at2 _ Ws.length (nOut n d) T _ hg2dims
          (zeros2_dims _ _) i j hi hj,
        at2_zeros2, zero_add,
        List.map_congr_left hentry2]
      rw [div_le_one hlenpos]
      calc Complex.abs ((T.map (fun t =>
            at2 (t.map (decimate d)) i j /
              ((Complex.abs (at2 (t.map (decimate d)) i j) : ℝ) : ℂ))).sum)
          ≤ ((T.map (fun t =>
            at2 (t.map (decimate d)) i j /
              ((Complex.abs (at2 (t.map (decimate d)) i j) : ℝ) : ℂ))).map
              Complex.abs).sum := abs_list_sum_le _
        _ = (T.map (fun _ => (1 : ℝ))).sum := by
            rw [List.map_map]
            congr 1
            exact List.map_congr_left (fun t ht => by
              simp only [Function.comp_apply]
              exact habs_unit t ht)
        _ = (T.length : ℝ) := by
            induction T with
            | nil => simp
            | cons a ts ihs => simp [ihs, add_comm]
        _ = (((x0 :: xs) : List (List ℂ)).length : ℝ) := by rw [hTlen]

end MneTF

namespace MneTF

/-- Concrete engine evaluation used by the C6 witness: one trial `[1]`,
one kernel `[1]`, temporal convolution. -/
theorem cwtSame_eval_unit :
    cwtSame false [[(1 : ℂ)]] [[(1 : ℂ)]] = Except.ok [[[(1 : ℂ)]]] := by
  unfold cwtSame
  rw [if_neg (by simp)]
  unfold cwtConvolve cwtConvRow npConvolve linConv centered
  norm_num [List.range_succ, collect]

/-- Witness for C6 at the one-trial, one-kernel, one-sample instance. -/
theorem c6_time_frequency_witness :
    ([[(1 : ℂ)]] ≠ ([] : List (List ℂ))) ∧
    (∀ x ∈ [[(1 : ℂ)]], x.length = 1) ∧
    (∀ W ∈ [[(1 : ℂ)]], 1 ≤ W.length ∧ W.length ≤ 1) ∧
    (1 : ℕ) ≤ 1 ∧
    cwtSame false [[(1 : ℂ)]] [[(1 : ℂ)]] = Except.ok [[[(1 : ℂ)]]] ∧
    (∀ C ∈ [[[(1 : ℂ)]]], ∀ r ∈ C, ∀ z ∈ r, z ≠ 0) ∧
    (∃ P L, timeFrequency [[(1 : ℂ)]] [[(1 : ℂ)]] false 1 =
        Except.ok (P, L) ∧
      ∀ i j, i < ([[(1 : ℂ)]] : List (List ℂ)).length → j < nOut 1 1 →
        at2 P i j =
          (([[[(1 : ℂ)]]] : List (List (List ℂ))).map (fun C =>
            Complex.abs (at2 (C.map (decimate 1)) i j) ^ 2)).sum /
            (([[(1 : ℂ)]] : List (List ℂ)).length : ℝ) ∧
        at2 L i j =
          Complex.abs ((([[[(1 : ℂ)]]] : List (List (List ℂ))).map (fun C =>
            at2 (C.map (decimate 1)) i j /
              ((Complex.abs (at2 (C.map (decimate 1)) i j) : ℝ) : ℂ))).sum /
            ((([[(1 : ℂ)]] : List (List ℂ)).length : ℕ) : ℂ)) ∧
        0 ≤ at2 L i j ∧ at2 L i j ≤ 1) :=
  ⟨by simp, by simp, by simp, le_refl 1, cwtSame_eval_unit, by simp,
   c6_time_frequency [[(1 : ℂ)]] [[(1 : ℂ)]] false 1 1 [[[(1 : ℂ)]]]
     (by simp) (by simp) (by simp) (le_refl 1) cwtSame_eval_unit (by simp)⟩

end MneTF

namespace MneTF

/-! ### Claim C8: the multitaper bank structure -/

/-- Claim C8: `_dpss_wavelet` raises a `ValueError` exactly when
`time_bandwidth < 2.0` or the cycle-count sequence length is neither 1
nor the frequency count; otherwise it returns the taper-major,
frequency-minor bank with exactly `floor(time_bandwidth - 1)` taper rows,
each holding one kernel per requested frequency in order.  (Frequencies
are assumed positive: at `f = 0` the Python code fails inside
`np.arange` instead.) -/
theorem c8_dpss_bank (dpss : ℕ → ℝ → ℕ → List (List ℝ)) (sfreq : ℝ)
    (freqs ncycles : List ℝ) (tb : ℝ) (zm : Bool)
    (hf : ∀ f ∈ freqs, 0 < f) :
    ((∃ e, dpssWavelet dpss sfreq freqs ncycles tb zm = Except.error e) ↔
      tb < 2 ∨ (ncycles.length ≠ 1 ∧ ncycles.length ≠ freqs.length)) ∧
    (¬ tb < 2 → (ncycles.length = 1 ∨ ncycles.length = freqs.length) →
      ∃ bank, dpssWavelet dpss sfreq freqs ncycles tb zm =
          Except.ok bank ∧
        bank.length = ⌊tb - 1⌋₊ ∧
        (∀ row ∈ bank, row.length = freqs.length) ∧
        ∀ mi ki, mi < ⌊tb - 1⌋₊ → ki < freqs.length →
          (bank.getD mi []).getD ki [] =
            dpssKernel dpss sfreq (freqs.getD ki 0) (cycSel ncycles ki) tb
              ⌊tb - 1⌋₊ mi zm) := by
  constructor
  · constructor
    · rintro ⟨e, he⟩
      unfold dpssWavelet at he
      split_ifs at he with h1 h2
      · exact Or.inl h1
      · right
        push_neg at h2
        exact h2
    · intro h
      unfold dpssWavelet
      split_ifs with h1 h2
      · exact ⟨_, rfl⟩
      · rcases h with h | h
        · exact absurd h h1
        · rcases h2 with hh | hh
          · exact absurd hh h.1
          · exact absurd hh h.2
      · exact ⟨_, rfl⟩
  · intro h1 h2
    unfold dpssWavelet
    rw [if_neg h1, if_pos h2]
    refine ⟨_, rfl, by simp, ?_, ?_⟩
    · intro row hrow
      obtain ⟨m, _, rfl⟩ := List.mem_map.mp hrow
      simp [List.enum_length]
    · intro mi ki hmi hki
      rw [List.getD_eq_getElem
        ((List.range ⌊tb - 1⌋₊).map (fun m => freqs.enum.map
          (fun p => dpssKernel dpss sfreq p.2 (cycSel ncycles p.1) tb
            ⌊tb - 1⌋₊ m zm))) []
        (by rw [List.length_map, List.length_range]; exact hmi)]
      rw [List.getElem_map, List.getElem_range]
      rw [List.getD_eq_getElem _ _
        (by rw [List.length_map, List.enum_length]; exact hki)]
      rw [List.getElem_map, List.getElem_enum,
        List.getD_eq_getElem freqs 0 hki]

/-- Witness for C8 at a concrete instance (constant taper collaborator,
`time_bandwidth = 4`). -/
theorem c8_dpss_bank_witness :
    (∀ f ∈ ([1] : List ℝ), 0 < f) ∧ ¬ (4 : ℝ) < 2 ∧
      (([1] : List ℝ).length = 1 ∨
        ([1] : List ℝ).length = ([1] : List ℝ).length) ∧
      (∃ bank, dpssWavelet (fun n _ k => List.replicate k
          (List.replicate n (1 : ℝ))) 1 [1] [1] 4 false =
          Except.ok bank ∧
        bank.length = ⌊(4 : ℝ) - 1⌋₊ ∧
        (∀ row ∈ bank, row.length = ([1] : List ℝ).length) ∧
        ∀ mi ki, mi < ⌊(4 : ℝ) - 1⌋₊ → ki < ([1] : List ℝ).length →
          (bank.getD mi []).getD ki [] =
            dpssKernel (fun n _ k => List.replicate k
              (List.replicate n (1 : ℝ))) 1 (([1] : List ℝ).getD ki 0)
              (cycSel [1] ki) 4 ⌊(4 : ℝ) - 1⌋₊ mi false) :=
  ⟨by simp, by norm_num, Or.inl rfl,
   (c8_dpss_bank (fun n _ k => List.replicate k (List.replicate n (1 : ℝ)))
     1 [1] [1] 4 false (by simp)).2 (by norm_num) (Or.inl rfl)⟩

end MneTF

namespace MneTF

/-! ### Claim C7: worker-count invariance of the orchestration paths -/

theorem getD_map_in {β γ : Type} (f : β → γ) (l : List β) (i : ℕ)
    (db : β) (dg : γ) (h : i < l.length) :
    (l.map f).getD i dg = f (l.getD i db) := by
  rw [List.getD_eq_getElem _ _ (by simpa using h), List.getElem_map,
    List.getD_eq_getElem _ _ h]

theorem collect_map_ok_inv {β ε α : Type} (f : β → Except ε α)
    (db : β) (da : α) :
    ∀ (l : List β) (r : List α), collect (l.map f) = Except.ok r →
      r.length = l.length ∧
      ∀ i, i < l.length → f (l.getD i db) = Except.ok (r.getD i da) := by
  intro l
  induction l with
  | nil =>
    intro r hr
    simp only [List.map_nil, collect] at hr
    have : r = [] := (Except.ok.inj hr).symm
    subst this
    exact ⟨rfl, fun i hi => absurd hi (by simp)⟩
  | cons b bs ih =>
    intro r hr
    simp only [List.map_cons, collect] at hr
    cases hfb : f b with
    | error e =>
      rw [hfb] at hr
      exact absurd hr (by simp)
    | ok a =>
      rw [hfb] at hr
      cases hcol : collect (bs.map f) with
      | error e =>
        rw [hcol] at hr
        exact absurd hr (by simp)
      | ok rest =>
        rw [hcol] at hr
        have hreq : r = a :: rest := (Except.ok.inj hr).symm
        subst hreq
        obtain ⟨hlen, hentries⟩ := ih rest hcol
        refine ⟨by simp [hlen], ?_⟩
        intro i hi
        cases i with
        | zero => simpa using hfb
        | succ k =>
          simpa using hentries k (by simpa using hi)

/-- Claim C7: under the stated assumption on the external parallel map
(it applies the given pure function to each task and returns results in
submission order, i.e. it is `List.map`), the `n_jobs == 1` loop of
`single_trial_power` and its parallel branch compute identical power
arrays; `_induced_power_cwt` is worker-count independent; and its output
slot `c` holds exactly `_time_frequency` of channel `c`'s slice. -/
theorem c7_worker_count_invariance
    (pmap1 : (List (List ℂ) → Except String (List (List (List ℂ)))) →
      List (List (List ℂ)) → List (Except String (List (List (List ℂ)))))
    (pmap2 : (List (List ℂ) → Except String (List (List ℝ) × List (List ℝ))) →
      List (List (List ℂ)) →
      List (Except String (List (List ℝ) × List (List ℝ))))
    (hp1 : ∀ f l, pmap1 f l = l.map f)
    (hp2 : ∀ f l, pmap2 f l = l.map f) :
    (∀ data sfreq freqs nc useFft d zm,
      singleTrialPower pmap1 true data sfreq freqs nc useFft d zm =
        singleTrialPower pmap1 false data sfreq freqs nc useFft d zm) ∧
    (∀ data sfreq freqs nc useFft d zm,
      inducedPowerCwt pmap2 data sfreq freqs nc useFft d zm =
        inducedPowerCwt (fun f l => l.map f) data sfreq freqs nc
          useFft d zm) ∧
    (∀ data sfreq freqs nc useFft d zm psd plf Ws,
      morlet sfreq freqs nc Option.none zm = Except.ok Ws →
      inducedPowerCwt pmap2 data sfreq freqs nc useFft d zm =
        Except.ok (psd, plf) →
      ∀ c, c < (data.headD []).length →
        timeFrequency (data.map (fun e => e.getD c [])) Ws useFft d =
          Except.ok (psd.getD c [], plf.getD c [])) := by
  refine ⟨?_, ?_, ?_⟩
  · intro data sfreq freqs nc useFft d zm
    simp [singleTrialPower, hp1]
  · intro data sfreq freqs nc useFft d zm
    simp [inducedPowerCwt, hp2]
  · intro data sfreq freqs nc useFft d zm psd plf Ws hmor hok c hc
    unfold inducedPowerCwt at hok
    rw [hmor] at hok
    dsimp only at hok
    rw [hp2] at hok
    cases hcol : collect (((List.range (data.headD []).length).map
        (fun c => data.map (fun e => e.getD c []))).map
        (fun x => timeFrequency x Ws useFft d)) with
    | error e =>
      rw [hcol] at hok
      exact absurd hok (by simp)
    | ok rs =>
      rw [hcol] at hok
      have hpair := Except.ok.inj hok
      have hpsd : rs.map Prod.fst = psd := congrArg Prod.fst hpair
      have hplf : rs.map Prod.snd = plf := congrArg Prod.snd hpair
      obtain ⟨hlen, hent⟩ := collect_map_ok_inv
        (fun x => timeFrequency x Ws useFft d) [] ([], []) _ rs hcol
      have hc2 : c < ((List.range (data.headD []).length).map
          (fun c => data.map (fun e => e.getD c []))).length := by
        rw [List.length_map, List.length_range]
        exact hc
      have h1 := hent c hc2
      have htask : ((List.range (data.headD []).length).map
          (fun c => data.map (fun e => e.getD c []))).getD c [] =
          data.map (fun e => e.getD c []) := by
        rw [getD_map_in _ _ c 0 [] (by rw [List.length_range]; exact hc),
          List.getD_eq_getElem _ _ (by rw [List.length_range]; exact hc),
          List.getElem_range]
      rw [htask] at h1
      rw [h1]
      have hcrs : c < rs.length := by
        rw [hlen]
        exact hc2
      rw [← hpsd, ← hplf,
        getD_map_in Prod.fst rs c ([], []) [] hcrs,
        getD_map_in Prod.snd rs c ([], []) [] hcrs]

/-- Witness for C7: the identity parallel map satisfies the assumption,
and the two branches agree at a concrete one-epoch input. -/
theorem c7_worker_count_invariance_witness :
    (∀ (f : List (List ℂ) → Except String (List (List (List ℂ))))
        (l : List (List (List ℂ))),
      (fun (g : List (List ℂ) → Except String (List (List (List ℂ))))
        (m : List (List (List ℂ))) => m.map g) f l = l.map f) ∧
    singleTrialPower (fun g m => m.map g) true [[[(1 : ℂ)]]] 1 [1] [1]
        false 1 false =
      singleTrialPower (fun g m => m.map g) false [[[(1 : ℂ)]]] 1 [1] [1]
        false 1 false ∧
    inducedPowerCwt (fun g m => m.map g) [[[(1 : ℂ)]]] 1 [1] [1]
        false 1 false =
      inducedPowerCwt (fun f l => l.map f) [[[(1 : ℂ)]]] 1 [1] [1]
        false 1 false :=
  ⟨fun _ _ => rfl,
   (c7_worker_count_invariance (fun g m => m.map g) (fun g m => m.map g)
     (fun _ _ => rfl) (fun _ _ => rfl)).1 [[[(1 : ℂ)]]] 1 [1] [1]
     false 1 false,
   (c7_worker_count_invariance (fun g m => m.map g) (fun g m => m.map g)
     (fun _ _ => rfl) (fun _ _ => rfl)).2.1 [[[(1 : ℂ)]]] 1 [1] [1]
     false 1 false⟩

end MneTF

namespace MneTF

/-! ### Claims C9 and C10: container arithmetic -/

theorem zip_add_sub_cancel1 :
    ∀ (u v : List ℚ), u.length = v.length →
      List.zipWith (fun a b => a - b)
        (List.zipWith (fun a b => a + b) u v) v = u := by
  intro u
  induction u with
  | nil => intro v _; simp
  | cons a us ih =>
    intro v hv
    cases v with
    | nil => simp at hv
    | cons b vs =>
      simp only [List.zipWith_cons_cons, add_sub_cancel_right,
        List.cons.injEq, true_and]
      exact ih vs (by simpa using hv)

theorem zip_add_sub_cancel2 (T : ℕ) :
    ∀ (M N : List (List ℚ)), M.length = N.length →
      (∀ r ∈ M, r.length = T) → (∀ r ∈ N, r.length = T) →
      d2combine (fun a b => a - b) (d2combine (fun a b => a + b) M N) N =
        M := by
  intro M
  induction M with
  | nil => intro N _ _ _; simp [d2combine]
  | cons m Ms ih =>
    intro N hlen hM hN
    cases N with
    | nil => simp at hlen
    | cons q Ns =>
      simp only [d2combine, List.zipWith_cons_cons, List.cons.injEq]
      constructor
      · exact zip_add_sub_cancel1 m q
          (by rw [hM m (List.mem_cons_self _ _), hN q (List.mem_cons_self _ _)])
      · exact ih Ns (by simpa using hlen)
          (fun r hr => hM r (List.mem_cons_of_mem _ hr))
          (fun r hr => hN r (List.mem_cons_of_mem _ hr))

theorem zip_add_sub_cancel3 (F T : ℕ) :
    ∀ (A B : List (List (List ℚ))), A.length = B.length →
      (∀ m ∈ A, dims2 m F T) → (∀ m ∈ B, dims2 m F T) →
      List.zipWith (d2combine (fun a b => a - b))
        (List.zipWith (d2combine (fun a b => a + b)) A B) B = A := by
  intro A
  induction A with
  | nil => intro B _ _ _; simp
  | cons m As ih =>
    intro B hlen hA hB
    cases B with
    | nil => simp at hlen
    | cons q Bs =>
      simp only [List.zipWith_cons_cons, List.cons.injEq]
      constructor
      · have hm := hA m (List.mem_cons_self _ _)
        have hq := hB q (List.mem_cons_self _ _)
        exact zip_add_sub_cancel2 T m q (by rw [hm.1, hq.1]) hm.2 hq.2
      · exact ih Bs (by simpa using hlen)
          (fun r hr => hA r (List.mem_cons_of_mem _ hr))
          (fun r hr => hB r (List.mem_cons_of_mem _ hr))

/-- Claim C9: for containers with identical times and freqs axes and
equal data shapes, `(A + B) - B` reproduces `A` exactly (exact
arithmetic over ℚ; the non-in-place operators build a fresh copy, so the
operands are untouched by construction in this functional embedding);
and if the times or freqs axes differ, both `+` and `-` fail with the
assertion error. -/
theorem c9_add_sub_roundtrip (A B : TFRm) (nch F T : ℕ) :
    (B.times = A.times → B.freqs = A.freqs →
      dims3 A.data nch F T → dims3 B.data nch F T →
      (tfrAdd A B).bind (fun C => tfrSub C B) = Except.ok A) ∧
    (B.times ≠ A.times ∨ B.freqs ≠ A.freqs →
      tfrAdd A B = Except.error "AssertionError" ∧
      tfrSub A B = Except.error "AssertionError") := by
  constructor
  · intro ht hf hA hB
    have hcompat : checkCompat A B = true := by
      unfold checkCompat
      simp [ht, hf]
    unfold tfrAdd
    rw [if_pos hcompat]
    unfold d3combine
    rw [if_pos (by rw [hA.1, hB.1])]
    simp only [Except.map, Except.bind]
    unfold tfrSub
    rw [if_pos (by unfold checkCompat; simp [ht, hf])]
    unfold d3combine
    simp only
    rw [if_pos (by
      rw [List.length_zipWith, hA.1, hB.1, min_self])]
    simp only [Except.map]
    rw [zip_add_sub_cancel3 F T A.data B.data (by rw [hA.1, hB.1])
      hA.2 hB.2]
  · intro h
    have hcompat : checkCompat A B = false := by
      unfold checkCompat
      rcases h with h | h <;> simp [h]
    unfold tfrAdd tfrSub
    rw [if_neg (by rw [hcompat]; simp), if_neg (by rw [hcompat]; simp)]
    exact ⟨rfl, rfl⟩

/-- Witness for C9 at concrete containers. -/
theorem c9_add_sub_roundtrip_witness :
    (TFRm.mk [[[3, 4]]] [0, 1] [5] 2).times =
      (TFRm.mk [[[1, 2]]] [0, 1] [5] 7).times ∧
    (TFRm.mk [[[3, 4]]] [0, 1] [5] 2).freqs =
      (TFRm.mk [[[1, 2]]] [0, 1] [5] 7).freqs ∧
    dims3 (TFRm.mk [[[1, 2]]] [0, 1] [5] 7).data 1 1 2 ∧
    dims3 (TFRm.mk [[[3, 4]]] [0, 1] [5] 2).data 1 1 2 ∧
    (tfrAdd (TFRm.mk [[[1, 2]]] [0, 1] [5] 7)
        (TFRm.mk [[[3, 4]]] [0, 1] [5] 2)).bind
      (fun C => tfrSub C (TFRm.mk [[[3, 4]]] [0, 1] [5] 2)) =
      Except.ok (TFRm.mk [[[1, 2]]] [0, 1] [5] 7) :=
  ⟨rfl, rfl, by simp [dims3, dims2], by simp [dims3, dims2],
   (c9_add_sub_roundtrip (TFRm.mk [[[1, 2]]] [0, 1] [5] 7)
     (TFRm.mk [[[3, 4]]] [0, 1] [5] 2) 1 1 2).1 rfl rfl
     (by simp [dims3, dims2]) (by simp [dims3, dims2])⟩

/-- Claim C10: `_check_compat` looks only at the times and freqs axes
(channel counts are ignored), and adding a 1-channel container to an
n-channel container with matching axes succeeds silently, broadcasting
the single channel across all of the left operand's channels, with
`nave`, `times` and `freqs` taken unchanged from the left operand. -/
theorem c10_compat_ignores_channels (A B : TFRm) :
    (checkCompat A B = true ↔ (B.times = A.times ∧ B.freqs = A.freqs)) ∧
    (B.times = A.times → B.freqs = A.freqs → B.data.length = 1 →
      ∃ C, tfrAdd A B = Except.ok C ∧
        C.data = A.data.map (fun ch =>
          d2combine (fun u v => u + v) ch (B.data.headD [])) ∧
        C.nave = A.nave ∧ C.times = A.times ∧ C.freqs = A.freqs) := by
  constructor
  · unfold checkCompat
    simp
  · intro ht hf hb1
    have hcompat : checkCompat A B = true := by
      unfold checkCompat
      simp [ht, hf]
    unfold tfrAdd
    rw [if_pos hcompat]
    unfold d3combine
    by_cases hlen : B.data.length = A.data.length
    · rw [if_pos hlen]
      simp only [Except.map]
      refine ⟨_, rfl, ?_, rfl, rfl, rfl⟩
      obtain ⟨b0, hb0⟩ := List.length_eq_one.mp hb1
      obtain ⟨a0, ha0⟩ := List.length_eq_one.mp (by omega :
        A.data.length = 1)
      rw [hb0, ha0]
      simp
    · rw [if_neg hlen, if_pos hb1]
      simp only [Except.map]
      exact ⟨_, rfl, rfl, rfl, rfl, rfl⟩

/-- Witness for C10: a 2-channel container plus a 1-channel container
with the same axes succeeds by broadcasting, `nave` unchanged. -/
theorem c10_compat_ignores_channels_witness :
    (TFRm.mk [[[10]]] [0] [5] 3).times =
      (TFRm.mk [[[1]], [[2]]] [0] [5] 7).times ∧
    (TFRm.mk [[[10]]] [0] [5] 3).freqs =
      (TFRm.mk [[[1]], [[2]]] [0] [5] 7).freqs ∧
    (TFRm.mk [[[10]]] [0] [5] 3).data.length = 1 ∧
    (∃ C, tfrAdd (TFRm.mk [[[1]], [[2]]] [0] [5] 7)
        (TFRm.mk [[[10]]] [0] [5] 3) = Except.ok C ∧
      C.data = (TFRm.mk [[[1]], [[2]]] [0] [5] 7).data.map (fun ch =>
        d2combine (fun u v => u + v) ch
          ((TFRm.mk [[[10]]] [0] [5] 3).data.headD [])) ∧
      C.nave = (TFRm.mk [[[1]], [[2]]] [0] [5] 7).nave ∧
      C.times = (TFRm.mk [[[1]], [[2]]] [0] [5] 7).times ∧
      C.freqs = (TFRm.mk [[[1]], [[2]]] [0] [5] 7).freqs) :=
  ⟨rfl, rfl, rfl,
   (c10_compat_ignores_channels (TFRm.mk [[[1]], [[2]]] [0] [5] 7)
     (TFRm.mk [[[10]]] [0] [5] 3)).2 rfl rfl rfl⟩

end MneTF
